import Mathlib

/-!
Verification of the query-compilation core of joeltg/forty-six (`codex.go`).

This file gives a shallow embedding of the statement classifier
(`getInitalCodexMap`), the store probe (`getCount`), and the assignment
builder (`getAssignmentTree`) of `codex.go`, and proves properties of the
embedding.

Modelling conventions:

* Machine integers (`uint64`, `int`) are modelled as `Nat`; none of the
  verified properties involves overflow.
* Go pointers to `Reference` are modelled by an arena: classification
  produces a `List Reference` and every place the Go code stores a
  `*Reference` (codex groups, the constants list, the `Dual` field) stores
  an index into that arena.  Mutation of a reference becomes `List.set`.
* Go maps (`CodexMap.Index`, `Codex.Double`, the local `deps` map) are
  modelled as insertion-ordered association lists.  Go's map iteration
  order is unspecified; every property proved below about the contents of
  those maps is invariant under the iteration order, and the one place
  where Go map iteration order is observable (the iteration over
  `dataset.Graphs` in `getInitalCodexMap`) is made explicit by passing the
  dataset as a list of (graph name, quads) pairs whose order is the
  iteration order of that run.
* `sort.Stable` is modelled by `List.insertionSort`: for a total
  preorder the stably sorted permutation of a list is unique, so any
  correct stable sort computes it.
* The badger transaction is modelled as a read-only snapshot `Txn`
  holding the point-lookup table consulted by `getCount` and the
  candidate-set oracle consulted by `setValueRoot`.
-/

namespace Styx

/-- An RDF node (`ld.Node`): either a blank node (variable) carrying its
attribute, or a constant node (IRI or literal), identified by its string
form.  Only blankness, the attribute, and node equality are observable in
`codex.go`. -/
inductive Node where
  | blank (attr : String)
  | leaf (value : String)
deriving DecidableEq, Repr, Inhabited

/-- Whether a node is a blank node (the `quad.Subject.(*ld.BlankNode)`
type assertion). -/
def Node.isBlank : Node → Bool
  | .blank _ => true
  | .leaf _ => false

/-- Attribute of a blank node; `""` otherwise (in Go the local `a`, `b`,
`c` keep their zero value when the assertion fails). -/
def Node.attr : Node → String
  | .blank a => a
  | .leaf _ => ""

/-- One quad of the dataset (graph name kept outside, as in
`dataset.Graphs : map[string][]*ld.Quad`). -/
structure Quad where
  subject : Node
  predicate : Node
  object : Node
deriving DecidableEq, Repr

/-- Modelled from the spec: the permutation constants (`permutationA`,
..., `constantPermutation`) are declared outside `src/`.  Spec §3: the
`permutation` field selects one of the 6 rotations of
(subject, predicate, object) or a 7th "constant" marker.  The exact
numeric values are not observable in `codex.go`; we fix the obvious
enumeration, matching the literals 0/1/2 that `getInitalCodexMap` assigns
for single references. -/
def permutationA : Nat := 0

/-- The rotation with the predicate position unknown. -/
def permutationB : Nat := 1

/-- The rotation with the object position unknown. -/
def permutationC : Nat := 2

/-- The self-join marker for a repeated subject+predicate variable. -/
def permutationAB : Nat := 3

/-- The self-join marker for a repeated predicate+object variable. -/
def permutationBC : Nat := 4

/-- The self-join marker for a repeated object+subject variable. -/
def permutationCA : Nat := 5

/-- The marker for an all-constant statement. -/
def constantPermutation : Nat := 6

/-- Iteration state attached to a reference (`Cursor`).  `codex.go` reads
and writes the fields `Count`, `ID` and `Index`; the badger iterator the
full struct also carries is runtime I/O state outside this model. -/
structure Cursor where
  count : Nat := 0
  id : String := ""
  index : Nat := 0
deriving DecidableEq, Repr, Inhabited

/-- One occurrence of a variable in one statement (`Reference`).  `dual`
is an arena index standing for the Go `*Reference` pointer; `cursor` is
`none` exactly when the Go field is `nil`. -/
structure Reference where
  graph : String
  index : Nat
  permutation : Nat
  m : Option Node
  n : Option Node
  cursor : Option Cursor
  dual : Option Nat
deriving DecidableEq, Repr, Inhabited

/-- `makeReference` (codex.go:220): a fresh reference carrying an empty,
non-nil Cursor and a nil Dual. -/
def makeReference (graph : String) (index : Nat) (permutation : Nat)
    (m n : Option Node) : Reference :=
  { graph := graph
    index := index
    permutation := permutation
    m := m
    n := n
    cursor := some {}
    dual := none }

/-- Per-variable statistics group (`Codex`).  The three reference groups
hold arena indices; `Double` is the insertion-ordered rendering of the Go
map from partner variable id to reference group. -/
structure Codex where
  constraint : List Nat := []
  single : List Nat := []
  double : List (String × List Nat) := []
  norm : Nat := 0
  length : Nat := 0
  count : Nat := 0
deriving DecidableEq, Repr, Inhabited

/-- Append a reference index under key `b` of a `Double` association
list, creating the entry if missing (the body of `InsertDouble`,
codex.go:79-87). -/
def insertDoubleList (d : List (String × List Nat)) (b : String) (p : Nat) :
    List (String × List Nat) :=
  match d with
  | [] => [(b, [p])]
  | (k, refs) :: rest =>
    if k = b then (k, refs ++ [p]) :: rest
    else (k, refs) :: insertDoubleList rest b p

/-- `CodexMap`: the id → Codex mapping plus the insertion-ordered id
slice.  The Go `Index` map is rendered as an association list in
insertion order. -/
structure CodexMap where
  index : List (String × Codex) := []
  slice : List String := []
deriving DecidableEq, Repr, Inhabited

/-- `GetCodex` (codex.go:63): ensure a codex exists for `id`, creating an
empty one and appending `id` to the slice on first sight. -/
def CodexMap.getCodex (c : CodexMap) (id : String) : CodexMap :=
  if (c.index.lookup id).isSome then c
  else { index := c.index ++ [(id, {})], slice := c.slice ++ [id] }

/-- Mutation through the pointer returned by `GetCodex`: ensure the codex
exists, then update it in place. -/
def CodexMap.modifyCodex (c : CodexMap) (id : String) (f : Codex → Codex) :
    CodexMap :=
  let c' := c.getCodex id
  { c' with index := c'.index.map fun e => if e.1 = id then (e.1, f e.2) else e }

/-- Lookup of a codex (reads of `c.Index[id]`); total via the zero codex,
never hit on the ids the algorithm actually consults. -/
def CodexMap.find (c : CodexMap) (id : String) : Codex :=
  (c.index.lookup id).getD {}

/-- `InsertDouble` (codex.go:77): insert `p` into codex `a` under key
`b`. -/
def CodexMap.insertDouble (c : CodexMap) (a b : String) (p : Nat) : CodexMap :=
  c.modifyCodex a fun cx => { cx with double := insertDoubleList cx.double b p }

/-- Equality of `Except` results is decidable when both components are;
used to settle concrete runs of the compiler by evaluation. -/
instance exceptDecidableEq {e a : Type} [DecidableEq e] [DecidableEq a] :
    DecidableEq (Except e a) := fun x y =>
  match x, y with
  | .error u, .error v =>
    if h : u = v then isTrue (by rw [h])
    else isFalse fun hc => h (Except.error.inj hc)
  | .ok u, .ok v =>
    if h : u = v then isTrue (by rw [h])
    else isFalse fun hc => h (Except.ok.inj hc)
  | .error _, .ok _ => isFalse fun hc => Except.noConfusion hc
  | .ok _, .error _ => isFalse fun hc => Except.noConfusion hc

/-- The three error returns of `codex.go`, carrying the data the Go error
strings interpolate. -/
inductive CompileError where
  | unrepresentable
  | zeroCountSingle (ref : Reference)
  | zeroCountDouble (ref : Reference)
  | emptyValueRoot (id : String)
deriving DecidableEq, Repr

/-- State threaded through classification: the constants list (arena
indices), the reference arena, and the codex map under construction. -/
structure ClassState where
  constants : List Nat := []
  arena : List Reference := []
  codexMap : CodexMap := {}
deriving DecidableEq, Repr, Inhabited

/-- The body of the classification loop (codex.go:228-302): classify one
quad by which positions are blank and extend the state. -/
def processQuad (graph : String) (index : Nat) (q : Quad) (st : ClassState) :
    Except CompileError ClassState :=
  let A := q.subject.isBlank
  let a := q.subject.attr
  let B := q.predicate.isBlank
  let b := q.predicate.attr
  let C := q.object.isBlank
  let c := q.object.attr
  if !A && !B && !C then
    let p := st.arena.length
    let ref := makeReference graph index constantPermutation none none
    .ok { st with
          arena := st.arena ++ [ref]
          constants := st.constants ++ [p] }
  else if (A && !B && !C) || (!A && B && !C) || (!A && !B && C) then
    let ref : Reference :=
      if A then
        { graph := graph
          index := index
          permutation := 0
          m := some q.predicate
          n := some q.object
          cursor := none
          dual := none }
      else if B then
        { graph := graph
          index := index
          permutation := 1
          m := some q.object
          n := some q.subject
          cursor := none
          dual := none }
      else
        { graph := graph
          index := index
          permutation := 2
          m := some q.subject
          n := some q.predicate
          cursor := none
          dual := none }
    let pivot := a ++ b ++ c
    let p := st.arena.length
    .ok { st with
          arena := st.arena ++ [ref]
          codexMap := st.codexMap.modifyCodex pivot
            fun cx => { cx with single := cx.single ++ [p] } }
  else if A && B && !C then
    if a = b then
      let p := st.arena.length
      let ref := makeReference graph index permutationAB none (some q.object)
      .ok { st with
            arena := st.arena ++ [ref]
            codexMap := st.codexMap.modifyCodex a
              fun cx => { cx with constraint := cx.constraint ++ [p] } }
    else
      let p := st.arena.length
      let refA := { (makeReference graph index permutationA (some q.predicate) (some q.object))
                      with dual := some (p + 1) }
      let refB := { (makeReference graph index permutationB (some q.object) (some q.subject))
                      with dual := some p }
      .ok { st with
            arena := st.arena ++ [refA, refB]
            codexMap := (st.codexMap.insertDouble a b p).insertDouble b a (p + 1) }
  else if A && !B && C then
    if c = a then
      let p := st.arena.length
      let ref := makeReference graph index permutationCA none (some q.predicate)
      .ok { st with
            arena := st.arena ++ [ref]
            codexMap := st.codexMap.modifyCodex c
              fun cx => { cx with constraint := cx.constraint ++ [p] } }
    else
      let p := st.arena.length
      let refA := { (makeReference graph index permutationA (some q.predicate) (some q.object))
                      with dual := some (p + 1) }
      let refC := { (makeReference graph index permutationC (some q.subject) (some q.predicate))
                      with dual := some p }
      .ok { st with
            arena := st.arena ++ [refA, refC]
            codexMap := (st.codexMap.insertDouble a c p).insertDouble c a (p + 1) }
  else if !A && B && C then
    if b = c then
      let p := st.arena.length
      let ref := makeReference graph index permutationBC none (some q.subject)
      .ok { st with
            arena := st.arena ++ [ref]
            codexMap := st.codexMap.modifyCodex b
              fun cx => { cx with constraint := cx.constraint ++ [p] } }
    else
      let p := st.arena.length
      let refB := { (makeReference graph index permutationB (some q.object) (some q.subject))
                      with dual := some (p + 1) }
      let refC := { (makeReference graph index permutationC (some q.subject) (some q.predicate))
                      with dual := some p }
      .ok { st with
            arena := st.arena ++ [refB, refC]
            codexMap := (st.codexMap.insertDouble b c p).insertDouble c b (p + 1) }
  else
    .error .unrepresentable

/-- The inner classification loop over one graph's quads (`for index,
quad := range quads`). -/
def processQuads (graph : String) : Nat → List Quad → ClassState →
    Except CompileError ClassState
  | _, [], st => .ok st
  | index, q :: qs, st =>
    match processQuad graph index q st with
    | .error e => .error e
    | .ok st' => processQuads graph (index + 1) qs st'

/-- The outer classification loop (`for graph, quads := range
dataset.Graphs`); the list order is the map-iteration order of one run. -/
def processGraphs : List (String × List Quad) → ClassState →
    Except CompileError ClassState
  | [], st => .ok st
  | (g, qs) :: rest, st =>
    match processQuads g 0 qs st with
    | .error e => .error e
    | .ok st' => processGraphs rest st'

/-- `getInitalCodexMap` (codex.go:224): classify a dataset, returning the
constants list, the reference arena, and the codex map, or the
all-blank-triple error. -/
def getInitalCodexMap (graphs : List (String × List Quad)) :
    Except CompileError (List Nat × List Reference × CodexMap) :=
  match processGraphs graphs {} with
  | .error e => .error e
  | .ok st => .ok (st.constants, st.arena, st.codexMap)

/-- The count key a reference's probe looks up.  Modelled from the spec
(§4.2, §6): `assembleCountKey` is declared outside `src/`; the key is a
stable function of the permutation and the two known values.  (The Go
call also threads a `major` flag alternating between the equivalent
major/minor index keys, which store the same counter for a pair; the
model reads the one counter directly.) -/
structure CountKey where
  permutation : Nat
  m : Option Node
  n : Option Node
deriving DecidableEq, Repr

/-- Modelled from the spec: the key assembled for a reference's probe. -/
def Reference.assembleCountKey (ref : Reference) : CountKey :=
  { permutation := ref.permutation, m := ref.m, n := ref.n }

/-- The read snapshot used for one compilation (`*badger.Txn`).
`counts` is the point-lookup table consulted by `getCount` (`none` for a
missing key).  `valueRoot` is the candidate-set facility consulted by
`setValueRoot`, which is declared outside `src/`; modelled from the spec
(§3): it computes the variable's initial domain from its `present`
references, `none` when the intersection is empty. -/
structure Txn where
  counts : CountKey → Option Nat
  valueRoot : List Reference → Option (List String)

/-- `getCount` (codex.go:91): a missing key yields count zero without an
error; a present key yields its big-endian counter. -/
def getCount (txn : Txn) (key : CountKey) : Nat :=
  match txn.counts key with
  | none => 0
  | some c => c

/-- The body of the probe loops (codex.go:114-126 and 128-140) over one
reference group: attach a fresh Cursor holding the probed count, fail on
a zero count, and accumulate `Count`, `Norm` and `Length`. -/
def probeRefs (txn : Txn) (mkErr : Reference → CompileError) :
    List Nat → List Reference → Codex →
    Except CompileError (List Reference × Codex)
  | [], arena, cx => .ok (arena, cx)
  | p :: ps, arena, cx =>
    let ref := arena.getD p default
    let cnt := getCount txn ref.assembleCountKey
    if cnt = 0 then .error (mkErr ref)
    else
      probeRefs txn mkErr ps
        (arena.set p { ref with cursor := some { count := cnt } })
        { cx with
          count := cx.count + cnt
          norm := cx.norm + cnt * cnt
          length := cx.length + 1 }

/-- The probe loop over a codex's `Double` groups (codex.go:127-141). -/
def probeDoubles (txn : Txn) :
    List (String × List Nat) → List Reference → Codex →
    Except CompileError (List Reference × Codex)
  | [], arena, cx => .ok (arena, cx)
  | (_, refs) :: rest, arena, cx =>
    match probeRefs txn .zeroCountDouble refs arena cx with
    | .error e => .error e
    | .ok (arena', cx') => probeDoubles txn rest arena' cx'

/-- The probe phase for one codex (codex.go:112-141): `Count` is reset to
zero first; `Norm` and `Length` are not reset. -/
def probeCodex (txn : Txn) (arena : List Reference) (cx : Codex) :
    Except CompileError (List Reference × Codex) :=
  match probeRefs txn .zeroCountSingle cx.single arena { cx with count := 0 } with
  | .error e => .error e
  | .ok (arena', cx') => probeDoubles txn cx'.double arena' cx'

/-- The probe phase over the whole codex map (the `for _, codex := range
c.Index` loop); per-codex updates are independent, so the Go map
iteration order is immaterial and the association-list order is used. -/
def probePhase (txn : Txn) :
    List (String × Codex) → List Reference →
    Except CompileError (List (String × Codex) × List Reference)
  | [], arena => .ok ([], arena)
  | (id, cx) :: rest, arena =>
    match probeCodex txn arena cx with
    | .error e => .error e
    | .ok (arena', cx') =>
      match probePhase txn rest arena' with
      | .error e => .error e
      | .ok (rest', arena'') => .ok ((id, cx') :: rest', arena'')

/-- `CodexMap.Less` (codex.go:56) as a total preorder for the stable
sort: `A.Count > B.Count` orders descending, so `x` may precede `y`
exactly when `Count y ≤ Count x`.  `sort.Stable` is modelled by
`List.insertionSort`: for a total preorder every stable sort computes
the same permutation. -/
def codexLess (index : List (String × Codex)) (x y : String) : Prop :=
  ((index.lookup y).getD {}).count ≤ ((index.lookup x).getD {}).count

instance codexLessDecidable (index : List (String × Codex)) :
    DecidableRel (codexLess index) :=
  fun _ _ => inferInstanceAs (Decidable (_ ≤ _))

/-- The merge order used by `Past.sortOrder`: ascending partner
position. -/
def pastLE (x y : String × Nat × List Nat) : Prop :=
  x.2.1 ≤ y.2.1

instance pastLEDecidable : DecidableRel pastLE :=
  fun _ _ => inferInstanceAs (Decidable (_ ≤ _))

/-- The Past structure of an assignment.  Modelled from the spec (§3
Past, §4.4): the type is declared outside `src/`.  `slice` records the
`Push` events (partner id, partner position, reference group), `cursors`
is the flat cursor sequence, and `indices` is the
(partner id, occurrence) → offset lookup written by `insertIndex`. -/
structure Past where
  slice : List (String × Nat × List Nat) := []
  cursors : List Cursor := []
  indices : List ((String × Nat) × Nat) := []
deriving DecidableEq, Repr, Inhabited

/-- Modelled from the spec: `Past.Push` records a resolved dependency
group. -/
def Past.push (past : Past) (dep : String) (j : Nat) (refs : List Nat) : Past :=
  { past with slice := past.slice ++ [(dep, j, refs)] }

/-- Modelled from the spec: `insertIndex` records the offset of cursor
`k` of partner `dep` within the flat cursor sequence. -/
def Past.insertIndex (past : Past) (dep : String) (k : Nat) (pos : Nat) : Past :=
  { past with indices := past.indices ++ [((dep, k), pos)] }

/-- Modelled from the spec (§4.3): `sortOrder` sorts the recorded groups
into a deterministic merge order; we sort by partner position.  It
reorders `slice` only, leaving the cursor sequence itself in place. -/
def Past.sortOrder (past : Past) : Past :=
  { past with slice := past.slice.insertionSort pastLE }

/-- An `Assignment` restricted to the fields `codex.go` writes; the type
is declared outside `src/` and its remaining fields are untouched here.
Reference groups are arena indices; `valueRoot` is `none` exactly when
the Go field is `nil`. -/
structure Assignment where
  constraint : List Nat := []
  present : List Nat := []
  past : Past := {}
  future : List (String × List Nat) := []
  dependencies : List Nat := []
  valueRoot : Option (List String) := none
deriving DecidableEq, Repr, Inhabited

/-- Read of the Go `deps` map: a missing key reads as zero and is not
inserted. -/
def depsGet (deps : List (Nat × Nat)) (k : Nat) : Nat :=
  (deps.lookup k).getD 0

/-- Write of the Go `deps` map: update in place or append a new key. -/
def depsSet (deps : List (Nat × Nat)) (k v : Nat) : List (Nat × Nat) :=
  if (deps.lookup k).isSome then
    deps.map fun e => if e.1 = k then (e.1, v) else e
  else deps ++ [(k, v)]

/-- The `for k, ref := range refs` loop (codex.go:169-174): set each
cursor's `ID` and `Index`, record its offset, and append it to the flat
cursor sequence.  The arena is updated because Go mutates the shared
`*Cursor`. -/
def pushGroup (dep : String) :
    List Nat → Nat → List Reference → Past → List Reference × Past
  | [], _, arena, past => (arena, past)
  | p :: ps, k, arena, past =>
    let ref := arena.getD p default
    let cur := { ref.cursor.getD {} with id := dep, index := k }
    let past' := past.insertIndex dep k past.cursors.length
    let past'' := { past' with cursors := past'.cursors ++ [cur] }
    pushGroup dep ps (k + 1) (arena.set p { ref with cursor := some cur }) past''

/-- The `for _, k := range index[dep].Dependencies` loop
(codex.go:178-182): absorb the partner's recorded dependencies, keyed by
each `k` with value `j`. -/
def absorbDeps (j : Nat) (ks : List Nat) (deps : List (Nat × Nat)) :
    List (Nat × Nat) :=
  ks.foldl (fun acc k => if j > depsGet acc k then depsSet acc k j else acc) deps

/-- State threaded through one variable's `Double` iteration
(codex.go:164-186). -/
structure ResolveState where
  arena : List Reference
  past : Past := {}
  future : List (String × List Nat) := []
  deps : List (Nat × Nat) := []
deriving DecidableEq, Repr, Inhabited

/-- The `for dep, refs := range codex.Double` loop (codex.go:166-186):
already-positioned partners contribute Past cursors and dependency
positions; unpositioned partners are deferred verbatim to `future`. -/
def resolveDoubles (indexMap : List (String × Nat))
    (index : List (String × Assignment)) :
    List (String × List Nat) → ResolveState → ResolveState
  | [], rs => rs
  | (dep, refs) :: rest, rs =>
    match indexMap.lookup dep with
    | some j =>
      let past1 := rs.past.push dep j refs
      let pg := pushGroup dep refs 0 rs.arena past1
      let deps1 := if j > depsGet rs.deps j then depsSet rs.deps j j else rs.deps
      let deps2 := absorbDeps j ((index.lookup dep).getD {}).dependencies deps1
      resolveDoubles indexMap index rest
        { rs with arena := pg.1, past := pg.2, deps := deps2 }
    | none =>
      resolveDoubles indexMap index rest
        { rs with future := rs.future ++ [(dep, refs)] }

/-- The per-variable resolution loop (codex.go:152-208) over the sorted
slice, carrying the running position, the id → position map, and the
assignments built so far. -/
def resolvePhase (txn : Txn) (cmIndex : List (String × Codex)) :
    List String → Nat → List (String × Nat) → List (String × Assignment) →
    List Reference →
    Except CompileError (List (String × Assignment) × List Reference)
  | [], _, _, index, arena => .ok (index, arena)
  | id :: ids, i, indexMap, index, arena =>
    let indexMap' := indexMap ++ [(id, i)]
    let cx := (cmIndex.lookup id).getD {}
    let rs := resolveDoubles indexMap' index cx.double { arena := arena }
    let dependencies := (rs.deps.map Prod.fst).insertionSort (· ≤ ·)
    let present := cx.single
    let root := txn.valueRoot (present.map fun p => rs.arena.getD p default)
    match root with
    | none => .error (.emptyValueRoot id)
    | some r =>
      let asgn : Assignment :=
        { constraint := cx.constraint
          present := present
          past := rs.past.sortOrder
          future := rs.future
          dependencies := dependencies
          valueRoot := some r }
      resolvePhase txn cmIndex ids (i + 1) indexMap' (index ++ [(id, asgn)]) rs.arena

/-- `getAssignmentTree` (codex.go:105): probe every codex, stably sort
the slice by descending aggregate count, then resolve each variable in
order.  Returns the final slice, the assignment map (insertion-ordered),
and the arena with its attached cursors. -/
def CodexMap.getAssignmentTree (c : CodexMap) (txn : Txn) (arena : List Reference) :
    Except CompileError (List String × List (String × Assignment) × List Reference) :=
  match probePhase txn c.index arena with
  | .error e => .error e
  | .ok (index', arena') =>
    let slice' := c.slice.insertionSort (codexLess index')
    match resolvePhase txn index' slice' 0 [] [] arena' with
    | .error e => .error e
    | .ok (asgn, arena'') => .ok (slice', asgn, arena'')

/-- One full compilation: `getInitalCodexMap` followed by
`getAssignmentTree` against the same snapshot. -/
def compile (graphs : List (String × List Quad)) (txn : Txn) :
    Except CompileError (List String × List (String × Assignment) × List Reference) :=
  match getInitalCodexMap graphs with
  | .error e => .error e
  | .ok (_, arena, cm) => cm.getAssignmentTree txn arena

/-! ## Classification lemmas -/

/-- A quad with blank nodes in all three positions (the final branch of
the classification chain, codex.go:299). -/
def Quad.allBlank (q : Quad) : Bool :=
  q.subject.isBlank && q.predicate.isBlank && q.object.isBlank

theorem processQuad_of_allBlank (graph : String) (index : Nat) (q : Quad)
    (st : ClassState) (h : q.allBlank = true) :
    processQuad graph index q st = .error .unrepresentable := by
  rcases q with ⟨s, p, o⟩
  cases s <;> cases p <;> cases o <;>
    simp_all [Quad.allBlank, Node.isBlank, processQuad]

theorem processQuad_ok_of_not_allBlank (graph : String) (index : Nat) (q : Quad)
    (st : ClassState) (h : q.allBlank = false) :
    ∃ st', processQuad graph index q st = .ok st' := by
  rcases q with ⟨s, p, o⟩
  cases s <;> cases p <;> cases o <;>
    simp_all [Quad.allBlank, Node.isBlank, processQuad] <;>
    split <;> simp

theorem processQuads_error_iff (graph : String) (qs : List Quad) :
    ∀ (index : Nat) (st : ClassState),
      processQuads graph index qs st = .error .unrepresentable ↔
        ∃ q ∈ qs, q.allBlank = true := by
  induction qs with
  | nil =>
    intro index st
    simp [processQuads]
  | cons q qs ih =>
    intro index st
    by_cases h : q.allBlank = true
    · rw [processQuads, processQuad_of_allBlank graph index q st h]
      simpa using Or.inl h
    · obtain ⟨st', hst⟩ :=
        processQuad_ok_of_not_allBlank graph index q st (by simpa using h)
      rw [processQuads, hst, ih]
      simp [h]

theorem processQuads_ok_of_forall (graph : String) (qs : List Quad) :
    ∀ (index : Nat) (st : ClassState), (∀ q ∈ qs, q.allBlank = false) →
      ∃ st', processQuads graph index qs st = .ok st' := by
  induction qs with
  | nil =>
    intro index st _
    exact ⟨st, rfl⟩
  | cons q qs ih =>
    intro index st h
    obtain ⟨st1, hst1⟩ :=
      processQuad_ok_of_not_allBlank graph index q st (h q (by simp))
    obtain ⟨st2, hst2⟩ := ih (index + 1) st1 (fun q hq => h q (by simp [hq]))
    refine ⟨st2, ?_⟩
    rw [processQuads, hst1]
    exact hst2

theorem processGraphs_error_iff (graphs : List (String × List Quad)) :
    ∀ st : ClassState,
      processGraphs graphs st = .error .unrepresentable ↔
        ∃ gq ∈ graphs, ∃ q ∈ gq.2, q.allBlank = true := by
  induction graphs with
  | nil =>
    intro st
    simp [processGraphs]
  | cons gq rest ih =>
    intro st
    by_cases h : ∃ q ∈ gq.2, q.allBlank = true
    · rw [processGraphs, (processQuads_error_iff gq.1 gq.2 0 st).mpr h]
      exact iff_of_true rfl ⟨gq, by simp, h⟩
    · push_neg at h
      obtain ⟨st', hok⟩ := processQuads_ok_of_forall gq.1 gq.2 0 st
        (fun q hq => by simpa using h q hq)
      rw [processGraphs, hok, ih st']
      constructor
      · rintro ⟨x, hx, hq⟩
        exact ⟨x, List.mem_cons_of_mem _ hx, hq⟩
      · rintro ⟨x, hx, hq⟩
        rcases List.mem_cons.mp hx with rfl | hx
        · obtain ⟨q, hq1, hq2⟩ := hq
          exact absurd hq2 (by simpa using h q hq1)
        · exact ⟨x, hx, hq⟩

theorem processQuad_error_elim {graph : String} {index : Nat} {q : Quad}
    {st : ClassState} {e : CompileError}
    (h : processQuad graph index q st = .error e) : e = .unrepresentable := by
  by_cases hb : q.allBlank = true
  · rw [processQuad_of_allBlank graph index q st hb] at h
    exact (Except.error.inj h).symm
  · obtain ⟨st', hok⟩ := processQuad_ok_of_not_allBlank graph index q st
      (by simpa using hb)
    rw [hok] at h
    cases h

theorem processQuads_error_elim {graph : String} {e : CompileError}
    (qs : List Quad) :
    ∀ {index : Nat} {st : ClassState},
      processQuads graph index qs st = .error e → e = .unrepresentable := by
  induction qs with
  | nil =>
    intro index st h
    cases h
  | cons q qs ih =>
    intro index st h
    rw [processQuads] at h
    rcases heq : processQuad graph index q st with e' | st'
    · rw [heq] at h
      exact (Except.error.inj h) ▸ processQuad_error_elim heq
    · rw [heq] at h
      exact ih h

theorem processGraphs_error_elim {e : CompileError}
    (graphs : List (String × List Quad)) :
    ∀ {st : ClassState},
      processGraphs graphs st = .error e → e = .unrepresentable := by
  induction graphs with
  | nil =>
    intro st h
    cases h
  | cons gq rest ih =>
    intro st h
    rw [processGraphs] at h
    rcases heq : processQuads gq.1 0 gq.2 st with e' | st'
    · rw [heq] at h
      exact (Except.error.inj h) ▸ processQuads_error_elim gq.2 heq
    · rw [heq] at h
      exact ih h

/-! ## Probe-phase lemmas -/

/-- The reference stored at arena position `p`. -/
def refAt (arena : List Reference) (p : Nat) : Reference :=
  arena.getD p default

/-- The count key probed for arena position `p`. -/
def keyAt (arena : List Reference) (p : Nat) : CountKey :=
  (refAt arena p).assembleCountKey

/-- The count probed for arena position `p`. -/
def countAt (txn : Txn) (arena : List Reference) (p : Nat) : Nat :=
  getCount txn (keyAt arena p)

/-- Sum of the probed counts of a reference group. -/
def sumCounts (txn : Txn) (arena : List Reference) (ps : List Nat) : Nat :=
  (ps.map (countAt txn arena)).sum

/-- Sum of the squared probed counts of a reference group. -/
def sumNorm (txn : Txn) (arena : List Reference) (ps : List Nat) : Nat :=
  (ps.map fun p => countAt txn arena p * countAt txn arena p).sum

/-- All reference indices of a `Double` association list, in group
order. -/
def doubleRefs : List (String × List Nat) → List Nat
  | [] => []
  | g :: gs => g.2 ++ doubleRefs gs

theorem mem_doubleRefs {p : Nat} : ∀ {d : List (String × List Nat)},
    p ∈ doubleRefs d ↔ ∃ g ∈ d, p ∈ g.2 := by
  intro d
  induction d with
  | nil => simp [doubleRefs]
  | cons g gs ih => simp [doubleRefs, ih]

theorem getD_set (l : List Reference) (p : Nat) (r : Reference) (q : Nat) :
    (l.set p r).getD q default =
      if q = p ∧ p < l.length then r else l.getD q default := by
  by_cases h1 : q = p
  · subst h1
    by_cases h2 : q < l.length
    · simp [List.getD_eq_getElem?_getD, List.getElem?_set_self, h2]
    · simp [h2, List.set_eq_of_length_le (Nat.le_of_not_lt h2)]
  · simp [List.getD_eq_getElem?_getD, List.getElem?_set_ne
      (fun hc => h1 hc.symm), h1]

/-- Overwriting only the cursor of an arena entry does not change any
probed key. -/
theorem keyAt_set_cursor (arena : List Reference) (p : Nat) (c : Option Cursor)
    (q : Nat) :
    keyAt (arena.set p { refAt arena p with cursor := c }) q = keyAt arena q := by
  rw [keyAt, keyAt, refAt, refAt, getD_set]
  split
  · rename_i h
    rw [h.1]
    rfl
  · rfl

theorem countAt_set_cursor (txn : Txn) (arena : List Reference) (p : Nat)
    (c : Option Cursor) (q : Nat) :
    countAt txn (arena.set p { refAt arena p with cursor := c }) q =
      countAt txn arena q := by
  rw [countAt, countAt, keyAt_set_cursor]

theorem sumCounts_cons (txn : Txn) (arena : List Reference) (p : Nat)
    (ps : List Nat) :
    sumCounts txn arena (p :: ps) = countAt txn arena p + sumCounts txn arena ps := by
  simp [sumCounts]

theorem sumNorm_cons (txn : Txn) (arena : List Reference) (p : Nat)
    (ps : List Nat) :
    sumNorm txn arena (p :: ps) =
      countAt txn arena p * countAt txn arena p + sumNorm txn arena ps := by
  simp [sumNorm]

theorem sumCounts_congr {txn : Txn} {arena1 arena2 : List Reference}
    (ps : List Nat) (h : ∀ q, countAt txn arena1 q = countAt txn arena2 q) :
    sumCounts txn arena1 ps = sumCounts txn arena2 ps := by
  simp only [sumCounts]
  exact congrArg _ (List.map_congr_left fun q _ => h q)

theorem sumNorm_congr {txn : Txn} {arena1 arena2 : List Reference}
    (ps : List Nat) (h : ∀ q, countAt txn arena1 q = countAt txn arena2 q) :
    sumNorm txn arena1 ps = sumNorm txn arena2 ps := by
  simp only [sumNorm]
  exact congrArg _ (List.map_congr_left fun q _ => by rw [h q])

/-- Post-conditions of one probe loop (`probeRefs`): every probed count
is non-zero, only the listed positions change and only in their cursor,
every probed entry ends holding its probed count, and the codex
statistics accumulate the group's counts. -/
theorem probeRefs_ok (txn : Txn) (mkErr : Reference → CompileError) :
    ∀ (ps : List Nat) (arena : List Reference) (cx : Codex)
      {arena' : List Reference} {cx' : Codex},
      probeRefs txn mkErr ps arena cx = .ok (arena', cx') →
      (∀ p ∈ ps, countAt txn arena p ≠ 0) ∧
      (∀ q, keyAt arena' q = keyAt arena q) ∧
      (∀ q, q ∉ ps → refAt arena' q = refAt arena q) ∧
      arena'.length = arena.length ∧
      (∀ p ∈ ps, p < arena.length →
        refAt arena' p =
          { refAt arena p with cursor := some { count := countAt txn arena p } }) ∧
      cx'.count = cx.count + sumCounts txn arena ps ∧
      cx'.norm = cx.norm + sumNorm txn arena ps ∧
      cx'.length = cx.length + ps.length ∧
      cx'.constraint = cx.constraint ∧
      cx'.single = cx.single ∧
      cx'.double = cx.double := by
  intro ps
  induction ps with
  | nil =>
    intro arena cx arena' cx' h
    rw [probeRefs] at h
    cases h
    simp [sumCounts, sumNorm]
  | cons p ps ih =>
    intro arena cx arena' cx' h
    rw [probeRefs] at h
    by_cases hz : getCount txn (refAt arena p).assembleCountKey = 0
    · rw [if_pos (by exact hz)] at h
      cases h
    · rw [if_neg (by exact hz)] at h
      have hz' : countAt txn arena p ≠ 0 := hz
      set arena1 := arena.set p
        { refAt arena p with cursor := some { count := getCount txn (refAt arena p).assembleCountKey } } with harena1
      obtain ⟨ihz, ihkey, ihframe, ihlen, ihcur, ihcount, ihnorm, ihlength,
        ihconstraint, ihsingle, ihdouble⟩ := ih arena1 _ h
      dsimp only at ihcount ihnorm ihlength ihconstraint ihsingle ihdouble
      have hkey1 : ∀ q, keyAt arena1 q = keyAt arena q := fun q =>
        keyAt_set_cursor arena p _ q
      have hcnt1 : ∀ q, countAt txn arena1 q = countAt txn arena q := fun q =>
        countAt_set_cursor txn arena p _ q
      have hlen1 : arena1.length = arena.length := List.length_set ..
      have hframe1 : ∀ q, q ≠ p → refAt arena1 q = refAt arena q := by
        intro q hq
        rw [refAt, harena1, getD_set]
        simp [hq, refAt]
      refine ⟨?_, ?_, ?_, ?_, ?_, ?_, ?_, ?_, ihconstraint, ihsingle, ihdouble⟩
      · intro p' hp'
        rcases List.mem_cons.mp hp' with rfl | hp'
        · exact hz'
        · exact fun hc => ihz p' hp' (by rw [hcnt1]; exact hc)
      · intro q
        rw [ihkey q, hkey1 q]
      · intro q hq
        rw [ihframe q (fun hc => hq (List.mem_cons_of_mem _ hc)),
          hframe1 q (fun hc => hq (hc ▸ List.mem_cons_self p ps))]
      · rw [ihlen, hlen1]
      · intro p' hp' hplt
        rcases List.mem_cons.mp hp' with rfl | hp'
        · by_cases hmem : p' ∈ ps
          · rw [ihcur p' hmem (hlen1 ▸ hplt), hcnt1]
            rw [refAt, harena1, getD_set]
            simp [hplt, countAt, keyAt]
          · rw [ihframe p' hmem, refAt, harena1, getD_set]
            simp [hplt, countAt, keyAt]
        · by_cases hpp : p' = p
          · subst hpp
            by_cases hmem : p' ∈ ps
            · rw [ihcur p' hmem (hlen1 ▸ hplt), hcnt1]
              rw [refAt, harena1, getD_set]
              simp [hplt, countAt, keyAt]
            · rw [ihframe p' hmem, refAt, harena1, getD_set]
              simp [hplt, countAt, keyAt]
          · rw [ihcur p' hp' (hlen1 ▸ hplt), hcnt1, hframe1 p' hpp]
      · rw [ihcount, sumCounts_congr ps hcnt1, sumCounts_cons]
        have hdef : countAt txn arena p =
            getCount txn (arena.getD p default).assembleCountKey := rfl
        rw [hdef]
        omega
      · rw [ihnorm, sumNorm_congr ps hcnt1, sumNorm_cons]
        have hdef : countAt txn arena p =
            getCount txn (arena.getD p default).assembleCountKey := rfl
        rw [hdef]
        omega
      · rw [ihlength]
        simp only [List.length_cons]
        omega

theorem sumCounts_append (txn : Txn) (arena : List Reference)
    (ps qs : List Nat) :
    sumCounts txn arena (ps ++ qs) =
      sumCounts txn arena ps + sumCounts txn arena qs := by
  simp [sumCounts]

theorem sumNorm_append (txn : Txn) (arena : List Reference)
    (ps qs : List Nat) :
    sumNorm txn arena (ps ++ qs) = sumNorm txn arena ps + sumNorm txn arena qs := by
  simp [sumNorm]

theorem countAt_congr {txn : Txn} {arena1 arena2 : List Reference}
    (h : ∀ q, keyAt arena1 q = keyAt arena2 q) (q : Nat) :
    countAt txn arena1 q = countAt txn arena2 q := by
  rw [countAt, countAt, h q]

/-- Post-conditions of the probe loop over a codex's `Double` groups. -/
theorem probeDoubles_ok (txn : Txn) :
    ∀ (gs : List (String × List Nat)) (arena : List Reference) (cx : Codex)
      {arena' : List Reference} {cx' : Codex},
      probeDoubles txn gs arena cx = .ok (arena', cx') →
      (∀ p ∈ doubleRefs gs, countAt txn arena p ≠ 0) ∧
      (∀ q, keyAt arena' q = keyAt arena q) ∧
      (∀ q, q ∉ doubleRefs gs → refAt arena' q = refAt arena q) ∧
      arena'.length = arena.length ∧
      (∀ p ∈ doubleRefs gs, p < arena.length →
        refAt arena' p =
          { refAt arena p with cursor := some { count := countAt txn arena p } }) ∧
      cx'.count = cx.count + sumCounts txn arena (doubleRefs gs) ∧
      cx'.norm = cx.norm + sumNorm txn arena (doubleRefs gs) ∧
      cx'.length = cx.length + (doubleRefs gs).length ∧
      cx'.constraint = cx.constraint ∧
      cx'.single = cx.single ∧
      cx'.double = cx.double := by
  intro gs
  induction gs with
  | nil =>
    intro arena cx arena' cx' h
    rw [probeDoubles] at h
    cases h
    simp [doubleRefs, sumCounts, sumNorm]
  | cons g gs ih =>
    intro arena cx arena' cx' h
    rw [probeDoubles] at h
    rcases hr : probeRefs txn CompileError.zeroCountDouble g.2 arena cx with e | ⟨arena1, cx1⟩
    · rw [hr] at h
      cases h
    · rw [hr] at h
      obtain ⟨rz, rkey, rframe, rlen, rcur, rcount, rnorm, rlength, rconstraint,
        rsingle, rdouble⟩ := probeRefs_ok txn CompileError.zeroCountDouble g.2 arena cx hr
      obtain ⟨ihz, ihkey, ihframe, ihlen, ihcur, ihcount, ihnorm, ihlength,
        ihconstraint, ihsingle, ihdouble⟩ := ih arena1 cx1 h
      have hcnt1 : ∀ q, countAt txn arena1 q = countAt txn arena q :=
        countAt_congr rkey
      refine ⟨?_, ?_, ?_, ?_, ?_, ?_, ?_, ?_, ?_, ?_, ?_⟩
      · intro p hp
        rcases List.mem_append.mp (by simpa [doubleRefs] using hp) with hp | hp
        · exact rz p hp
        · exact fun hc => ihz p hp (by rw [hcnt1]; exact hc)
      · intro q
        rw [ihkey q, rkey q]
      · intro q hq
        rw [doubleRefs] at hq
        rw [ihframe q (fun hc => hq (List.mem_append.mpr (Or.inr hc))),
          rframe q (fun hc => hq (List.mem_append.mpr (Or.inl hc)))]
      · rw [ihlen, rlen]
      · intro p hp hplt
        rcases List.mem_append.mp (by simpa [doubleRefs] using hp) with hp | hp
        · by_cases hmem : p ∈ doubleRefs gs
          · rw [ihcur p hmem (rlen ▸ hplt), hcnt1, rcur p hp hplt]
          · rw [ihframe p hmem, rcur p hp hplt]
        · by_cases hpg : p ∈ g.2
          · by_cases hmem : p ∈ doubleRefs gs
            · rw [ihcur p hmem (rlen ▸ hplt), hcnt1, rcur p hpg hplt]
            · rw [ihframe p hmem, rcur p hpg hplt]
          · rw [ihcur p hp (rlen ▸ hplt), hcnt1, rframe p hpg]
      · rw [ihcount, sumCounts_congr (doubleRefs gs) hcnt1, rcount, doubleRefs,
          sumCounts_append]
        omega
      · rw [ihnorm, sumNorm_congr (doubleRefs gs) hcnt1, rnorm, doubleRefs,
          sumNorm_append]
        omega
      · rw [ihlength, rlength, doubleRefs, List.length_append]
        omega
      · rw [ihconstraint, rconstraint]
      · rw [ihsingle, rsingle]
      · rw [ihdouble, rdouble]

/-- Post-conditions of the probe phase for one codex (codex.go:112-141):
`Count` restarts from zero, `Norm` and `Length` accumulate on top of
their incoming values, and only `single` and `double` references are
probed — `constraint` references contribute nothing and their arena
entries are untouched. -/
theorem probeCodex_ok (txn : Txn) (arena : List Reference) (cx : Codex)
    {arena' : List Reference} {cx' : Codex}
    (h : probeCodex txn arena cx = .ok (arena', cx')) :
    (∀ p ∈ cx.single, countAt txn arena p ≠ 0) ∧
    (∀ p ∈ doubleRefs cx.double, countAt txn arena p ≠ 0) ∧
    (∀ q, keyAt arena' q = keyAt arena q) ∧
    (∀ q, q ∉ cx.single → q ∉ doubleRefs cx.double →
      refAt arena' q = refAt arena q) ∧
    arena'.length = arena.length ∧
    (∀ p, p ∈ cx.single ∨ p ∈ doubleRefs cx.double → p < arena.length →
      refAt arena' p =
        { refAt arena p with cursor := some { count := countAt txn arena p } }) ∧
    cx'.count = sumCounts txn arena cx.single +
      sumCounts txn arena (doubleRefs cx.double) ∧
    cx'.norm = cx.norm + sumNorm txn arena cx.single +
      sumNorm txn arena (doubleRefs cx.double) ∧
    cx'.length = cx.length + cx.single.length + (doubleRefs cx.double).length ∧
    cx'.constraint = cx.constraint ∧
    cx'.single = cx.single ∧
    cx'.double = cx.double := by
  rw [probeCodex] at h
  rcases hr : probeRefs txn CompileError.zeroCountSingle cx.single arena
      { cx with count := 0 } with e | ⟨arena1, cx1⟩
  · rw [hr] at h
    cases h
  · rw [hr] at h
    obtain ⟨rz, rkey, rframe, rlen, rcur, rcount, rnorm, rlength, rconstraint,
      rsingle, rdouble⟩ := probeRefs_ok txn CompileError.zeroCountSingle cx.single
        arena { cx with count := 0 } hr
    dsimp only at rcount rnorm rlength rconstraint rsingle rdouble
    obtain ⟨dz, dkey, dframe, dlen, dcur, dcount, dnorm, dlength, dconstraint,
      dsingle, ddouble⟩ := probeDoubles_ok txn cx1.double arena1 cx1 h
    rw [rdouble] at dz dframe dcur dcount dnorm dlength ddouble
    rw [rcount] at dcount
    rw [rnorm] at dnorm
    rw [rlength] at dlength
    rw [rconstraint] at dconstraint
    rw [rsingle] at dsingle
    have hcnt1 : ∀ q, countAt txn arena1 q = countAt txn arena q :=
      countAt_congr rkey
    refine ⟨rz, ?_, ?_, ?_, ?_, ?_, ?_, ?_, ?_, ?_, ?_, ?_⟩
    · intro p hp hc
      exact dz p hp (by rw [hcnt1]; exact hc)
    · intro q
      rw [dkey q, rkey q]
    · intro q hq1 hq2
      rw [dframe q hq2, rframe q hq1]
    · rw [dlen, rlen]
    · intro p hp hplt
      rcases hp with hp | hp
      · by_cases hmem : p ∈ doubleRefs cx.double
        · rw [dcur p hmem (rlen ▸ hplt), hcnt1, rcur p hp hplt]
        · rw [dframe p hmem, rcur p hp hplt]
      · by_cases hsing : p ∈ cx.single
        · by_cases hmem : p ∈ doubleRefs cx.double
          · rw [dcur p hmem (rlen ▸ hplt), hcnt1, rcur p hsing hplt]
          · rw [dframe p hmem, rcur p hsing hplt]
        · rw [dcur p hp (rlen ▸ hplt), hcnt1, rframe p hsing]
    · rw [dcount, sumCounts_congr (doubleRefs cx.double) hcnt1]
      omega
    · rw [dnorm, sumNorm_congr (doubleRefs cx.double) hcnt1]
    · rw [dlength]
    · exact dconstraint
    · exact dsingle
    · exact ddouble

/-- The per-codex statistics relation established by the probe phase:
the reference groups are unchanged and the aggregates are folds over the
`single` and `double` groups only (counts taken against the snapshot's
stable keys). -/
def probedCodex (txn : Txn) (arena : List Reference) (cx cx' : Codex) : Prop :=
  cx'.count = sumCounts txn arena cx.single +
    sumCounts txn arena (doubleRefs cx.double) ∧
  cx'.norm = cx.norm + sumNorm txn arena cx.single +
    sumNorm txn arena (doubleRefs cx.double) ∧
  cx'.length = cx.length + cx.single.length + (doubleRefs cx.double).length ∧
  cx'.constraint = cx.constraint ∧
  cx'.single = cx.single ∧
  cx'.double = cx.double

/-- Post-conditions of the whole probe phase. -/
theorem probePhase_ok (txn : Txn) :
    ∀ (entries : List (String × Codex)) (arena : List Reference)
      {entries' : List (String × Codex)} {arena' : List Reference},
      probePhase txn entries arena = .ok (entries', arena') →
      (∀ q, keyAt arena' q = keyAt arena q) ∧
      arena'.length = arena.length ∧
      List.Forall₂ (fun e e' => e.1 = e'.1 ∧ probedCodex txn arena e.2 e'.2)
        entries entries' ∧
      (∀ e ∈ entries, (∀ p ∈ e.2.single, countAt txn arena p ≠ 0) ∧
        ∀ p ∈ doubleRefs e.2.double, countAt txn arena p ≠ 0) ∧
      (∀ q, (∀ e ∈ entries, q ∉ e.2.single ∧ q ∉ doubleRefs e.2.double) →
        refAt arena' q = refAt arena q) ∧
      (∀ e ∈ entries, ∀ p, (p ∈ e.2.single ∨ p ∈ doubleRefs e.2.double) →
        p < arena.length →
        refAt arena' p =
          { refAt arena p with cursor := some { count := countAt txn arena p } }) := by
  intro entries
  induction entries with
  | nil =>
    intro arena entries' arena' h
    rw [probePhase] at h
    cases h
    simp
  | cons e es ih =>
    intro arena entries' arena' h
    rw [probePhase] at h
    rcases hc : probeCodex txn arena e.2 with err | ⟨arena1, cx1⟩
    · rw [hc] at h
      cases h
    · rw [hc] at h
      dsimp only at h
      rcases hp : probePhase txn es arena1 with err | ⟨rest', arena2⟩
      · rw [hp] at h
        cases h
      · rw [hp] at h
        cases h
        obtain ⟨cz1, cz2, ckey, cframe, clen, ccur, ccount, cnorm, clength,
          cconstraint, csingle, cdouble⟩ := probeCodex_ok txn arena e.2 hc
        obtain ⟨ihkey, ihlen, ihrel, ihz, ihframe, ihcur⟩ := ih arena1 hp
        have hcnt1 : ∀ q, countAt txn arena1 q = countAt txn arena q :=
          countAt_congr ckey
        have hkeyall : ∀ q, keyAt arena' q = keyAt arena q := fun q => by
          rw [ihkey q, ckey q]
        refine ⟨hkeyall, by rw [ihlen, clen], ?_, ?_, ?_, ?_⟩
        · refine List.Forall₂.cons ⟨rfl, ?_⟩ ?_
          · exact ⟨ccount, cnorm, clength, cconstraint, csingle, cdouble⟩
          · refine List.Forall₂.imp ?_ ihrel
            intro x y hxy
            refine ⟨hxy.1, ?_⟩
            obtain ⟨h1, h2, h3, h4, h5, h6⟩ := hxy.2
            exact ⟨by rw [h1, sumCounts_congr _ hcnt1, sumCounts_congr _ hcnt1],
              by rw [h2, sumNorm_congr _ hcnt1, sumNorm_congr _ hcnt1],
              h3, h4, h5, h6⟩
        · intro x hx
          rcases List.mem_cons.mp hx with rfl | hx
          · exact ⟨cz1, cz2⟩
          · obtain ⟨z1, z2⟩ := ihz x hx
            exact ⟨fun p hp' hzero => z1 p hp' (by rw [hcnt1]; exact hzero),
              fun p hp' hzero => z2 p hp' (by rw [hcnt1]; exact hzero)⟩
        · intro q hq
          obtain ⟨hq1, hq2⟩ := hq e (List.mem_cons_self e es)
          rw [ihframe q (fun x hx => hq x (List.mem_cons_of_mem _ hx)),
            cframe q hq1 hq2]
        · intro x hx p hp hplt
          rcases List.mem_cons.mp hx with rfl | hx
          · by_cases hrest : ∀ y ∈ es, p ∉ y.2.single ∧ p ∉ doubleRefs y.2.double
            · rw [ihframe p hrest, ccur p hp hplt]
            · push_neg at hrest
              obtain ⟨y, hy, hyp⟩ := hrest
              have hyp' : p ∈ y.2.single ∨ p ∈ doubleRefs y.2.double := by
                by_cases hs : p ∈ y.2.single
                · exact Or.inl hs
                · exact Or.inr (hyp hs)
              rw [ihcur y hy p hyp' (clen ▸ hplt), hcnt1, ccur p hp hplt]
          · by_cases hpe : p ∈ e.2.single ∨ p ∈ doubleRefs e.2.double
            · by_cases hrest : ∀ y ∈ es, p ∉ y.2.single ∧ p ∉ doubleRefs y.2.double
              · rw [ihframe p hrest, ccur p hpe hplt]
              · push_neg at hrest
                obtain ⟨y, hy, hyp⟩ := hrest
                have hyp' : p ∈ y.2.single ∨ p ∈ doubleRefs y.2.double := by
                  by_cases hs : p ∈ y.2.single
                  · exact Or.inl hs
                  · exact Or.inr (hyp hs)
                rw [ihcur y hy p hyp' (clen ▸ hplt), hcnt1, ccur p hpe hplt]
            · push_neg at hpe
              rw [ihcur x hx p hp (clen ▸ hplt), hcnt1, cframe p hpe.1 hpe.2]

/-- A successful `getAssignmentTree` contains a successful probe
phase. -/
theorem getAssignmentTree_ok_probePhase {cm : CodexMap} {txn : Txn}
    {arena : List Reference}
    {r : List String × List (String × Assignment) × List Reference}
    (h : cm.getAssignmentTree txn arena = .ok r) :
    ∃ index' arena', probePhase txn cm.index arena = .ok (index', arena') := by
  rw [CodexMap.getAssignmentTree] at h
  rcases hp : probePhase txn cm.index arena with e' | ⟨index', arena'⟩
  · rw [hp] at h
    cases h
  · exact ⟨index', arena', rfl⟩

/-! ## Classification well-formedness -/

theorem lookup_isSome_iff {α : Type} {l : List (String × α)} {x : String} :
    (l.lookup x).isSome ↔ x ∈ l.map Prod.fst := by
  induction l with
  | nil => simp
  | cons e l ih =>
    by_cases h : e.1 = x
    · simp [List.lookup, show (x == e.1) = true from beq_iff_eq.mpr h.symm, h]
    · simp [List.lookup,
        show (x == e.1) = false from beq_eq_false_iff_ne.mpr (Ne.symm h),
        ih, h, Ne.symm h]

/-- Well-formedness of a codex map, established by classification: the
slice is duplicate-free and mirrors the index keys in order, and no
codex records a `double` group under its own variable id. -/
def CodexMapWF (c : CodexMap) : Prop :=
  c.slice.Nodup ∧
  c.index.map Prod.fst = c.slice ∧
  ∀ e ∈ c.index, e.1 ∉ e.2.double.map Prod.fst

theorem getCodex_of_mem {c : CodexMap} {id : String}
    (h : id ∈ c.index.map Prod.fst) : c.getCodex id = c := by
  rw [CodexMap.getCodex, if_pos (lookup_isSome_iff.mpr h)]

theorem getCodex_of_not_mem {c : CodexMap} {id : String}
    (h : id ∉ c.index.map Prod.fst) :
    c.getCodex id = { index := c.index ++ [(id, {})], slice := c.slice ++ [id] } := by
  rw [CodexMap.getCodex, if_neg (by simpa [lookup_isSome_iff] using h)]

theorem mem_modifyCodex {c : CodexMap} {id : String} {f : Codex → Codex}
    {e : String × Codex} :
    e ∈ (c.modifyCodex id f).index ↔
      ∃ e0 ∈ (c.getCodex id).index,
        e = if e0.1 = id then (e0.1, f e0.2) else e0 := by
  rw [CodexMap.modifyCodex]
  simp only [List.mem_map]
  constructor
  · rintro ⟨e0, he0, rfl⟩
    exact ⟨e0, he0, rfl⟩
  · rintro ⟨e0, he0, rfl⟩
    exact ⟨e0, he0, rfl⟩

theorem map_fst_modifyCodex (c : CodexMap) (id : String) (f : Codex → Codex) :
    (c.modifyCodex id f).index.map Prod.fst = (c.getCodex id).index.map Prod.fst := by
  rw [CodexMap.modifyCodex]
  rw [List.map_map]
  exact List.map_congr_left fun e _ => by
    by_cases h : e.1 = id <;> simp [h]

theorem slice_modifyCodex (c : CodexMap) (id : String) (f : Codex → Codex) :
    (c.modifyCodex id f).slice = (c.getCodex id).slice := rfl

theorem codexMapWF_getCodex {c : CodexMap} (h : CodexMapWF c) (id : String) :
    CodexMapWF (c.getCodex id) := by
  obtain ⟨h1, h2, h3⟩ := h
  by_cases hm : id ∈ c.index.map Prod.fst
  · rw [getCodex_of_mem hm]
    exact ⟨h1, h2, h3⟩
  · rw [getCodex_of_not_mem hm]
    refine ⟨?_, ?_, ?_⟩
    · simp only [List.nodup_append, List.nodup_cons]
      exact ⟨h1, by simp, by simpa [List.disjoint_singleton, h2] using hm⟩
    · simp [h2]
    · intro e he
      rcases List.mem_append.mp he with he | he
      · exact h3 e he
      · rcases List.mem_singleton.mp he with rfl
        simp

theorem codexMapWF_modify_preserve {c : CodexMap} {id : String}
    {f : Codex → Codex} (h : CodexMapWF c)
    (hf : ∀ cx, (f cx).double = cx.double) :
    CodexMapWF (c.modifyCodex id f) := by
  obtain ⟨h1, h2, h3⟩ := codexMapWF_getCodex h id
  refine ⟨?_, ?_, ?_⟩
  · rw [slice_modifyCodex]
    exact h1
  · rw [map_fst_modifyCodex, slice_modifyCodex]
    exact h2
  · intro e he
    obtain ⟨e0, he0, heq⟩ := mem_modifyCodex.mp he
    by_cases hid : e0.1 = id
    · rw [heq, if_pos hid]
      simpa [hf] using h3 e0 he0
    · rw [heq, if_neg hid]
      exact h3 e0 he0

theorem mem_keys_insertDoubleList {x b : String} {p : Nat} :
    ∀ {d : List (String × List Nat)},
      x ∈ (insertDoubleList d b p).map Prod.fst ↔
        x ∈ d.map Prod.fst ∨ x = b := by
  intro d
  induction d with
  | nil => simp [insertDoubleList]
  | cons e d ih =>
    rw [insertDoubleList]
    by_cases h : e.1 = b
    · rw [if_pos h]
      subst h
      simp only [List.map_cons, List.mem_cons]
      tauto
    · rw [if_neg h]
      simp only [List.map_cons, List.mem_cons, ih]
      tauto

theorem codexMapWF_insertDouble {c : CodexMap} {a b : String} (hab : a ≠ b)
    (p : Nat) (h : CodexMapWF c) : CodexMapWF (c.insertDouble a b p) := by
  obtain ⟨hg1, hg2, hg3⟩ := codexMapWF_getCodex h a
  rw [CodexMap.insertDouble]
  refine ⟨?_, ?_, ?_⟩
  · rw [slice_modifyCodex]
    exact hg1
  · rw [map_fst_modifyCodex, slice_modifyCodex]
    exact hg2
  · intro e he
    obtain ⟨e0, he0, heq⟩ := mem_modifyCodex.mp he
    by_cases hid : e0.1 = a
    · rw [heq, if_pos hid]
      simp only [mem_keys_insertDoubleList]
      rintro (hc | hc)
      · exact hg3 e0 he0 hc
      · exact hab (hid ▸ hc)
    · rw [heq, if_neg hid]
      exact hg3 e0 he0

theorem processQuad_wf {graph : String} {index : Nat} {q : Quad}
    {st st' : ClassState} (h : processQuad graph index q st = .ok st')
    (hw : CodexMapWF st.codexMap) : CodexMapWF st'.codexMap := by
  rw [processQuad] at h
  split at h
  · cases h
    exact hw
  · split at h
    · cases h
      exact codexMapWF_modify_preserve hw (fun cx => rfl)
    · split at h
      · split at h
        · cases h
          exact codexMapWF_modify_preserve hw (fun cx => rfl)
        · rename_i hab
          cases h
          exact codexMapWF_insertDouble (fun hc => hab hc.symm) _
            (codexMapWF_insertDouble hab _ hw)
      · split at h
        · split at h
          · cases h
            exact codexMapWF_modify_preserve hw (fun cx => rfl)
          · rename_i hca
            cases h
            exact codexMapWF_insertDouble hca _
              (codexMapWF_insertDouble (fun hc => hca hc.symm) _ hw)
        · split at h
          · split at h
            · cases h
              exact codexMapWF_modify_preserve hw (fun cx => rfl)
            · rename_i hbc
              cases h
              exact codexMapWF_insertDouble (fun hc => hbc hc.symm) _
                (codexMapWF_insertDouble hbc _ hw)
          · cases h

theorem processQuads_wf {graph : String} :
    ∀ {qs : List Quad} {index : Nat} {st st' : ClassState},
      processQuads graph index qs st = .ok st' →
      CodexMapWF st.codexMap → CodexMapWF st'.codexMap := by
  intro qs
  induction qs with
  | nil =>
    intro index st st' h hw
    rw [processQuads] at h
    cases h
    exact hw
  | cons q qs ih =>
    intro index st st' h hw
    rw [processQuads] at h
    rcases hq : processQuad graph index q st with e | st1
    · rw [hq] at h
      cases h
    · rw [hq] at h
      exact ih h (processQuad_wf hq hw)

theorem processGraphs_wf :
    ∀ {graphs : List (String × List Quad)} {st st' : ClassState},
      processGraphs graphs st = .ok st' →
      CodexMapWF st.codexMap → CodexMapWF st'.codexMap := by
  intro graphs
  induction graphs with
  | nil =>
    intro st st' h hw
    rw [processGraphs] at h
    cases h
    exact hw
  | cons gq rest ih =>
    intro st st' h hw
    rw [processGraphs] at h
    rcases hq : processQuads gq.1 0 gq.2 st with e | st1
    · rw [hq] at h
      cases h
    · rw [hq] at h
      exact ih h (processQuads_wf hq hw)

/-- Classification always produces a well-formed codex map. -/
theorem getInitalCodexMap_wf {graphs : List (String × List Quad)}
    {consts : List Nat} {arena : List Reference} {cm : CodexMap}
    (h : getInitalCodexMap graphs = .ok (consts, arena, cm)) :
    CodexMapWF cm := by
  rw [getInitalCodexMap] at h
  rcases hp : processGraphs graphs {} with e | st
  · rw [hp] at h
    cases h
  · rw [hp] at h
    cases h
    exact processGraphs_wf hp ⟨List.nodup_nil, rfl, by simp⟩

/-! ## Example inputs shared by several theorems -/

/-- The spec §8 scenario: `{(?x, name, Joel), (?x, age, 22),
(?x, friend, ?y), (?y, name, Gabriel)}` in one graph. -/
def exFriendGraphs : List (String × List Quad) :=
  [("g", [⟨.blank "x", .leaf "name", .leaf "Joel"⟩,
          ⟨.blank "x", .leaf "age", .leaf "22"⟩,
          ⟨.blank "x", .leaf "friend", .blank "y"⟩,
          ⟨.blank "y", .leaf "name", .leaf "Gabriel"⟩])]

/-- A snapshot in which every count key holds 1 and every candidate
intersection is the non-empty singleton domain. -/
def exTxnOne : Txn :=
  { counts := fun _ => some 1, valueRoot := fun _ => some ["v"] }

/-- Two single-variable statements in two distinct named graphs, listed
in one iteration order... -/
def exPermGraphsA : List (String × List Quad) :=
  [("g1", [⟨.blank "x", .leaf "p", .leaf "o"⟩]),
   ("g2", [⟨.blank "y", .leaf "p", .leaf "o"⟩])]

/-- ...and the same two graphs listed in the other iteration order. -/
def exPermGraphsB : List (String × List Quad) :=
  [("g2", [⟨.blank "y", .leaf "p", .leaf "o"⟩]),
   ("g1", [⟨.blank "x", .leaf "p", .leaf "o"⟩])]

/-! ## C4 -/

/-- C4 (amended): `getInitalCodexMap` fails — with the unrepresentable-
statement error, and returning no constants list and no codex map — iff
the dataset contains a statement whose subject, predicate and object are
all variables, whether or not they are pairwise distinct. -/
theorem getInitalCodexMap_eq_error {graphs : List (String × List Quad)}
    {e : CompileError} :
    getInitalCodexMap graphs = .error e ↔ processGraphs graphs {} = .error e := by
  rcases heq : processGraphs graphs {} with e' | st <;>
    simp [getInitalCodexMap, heq]

theorem C4_unrepresentable_iff_allBlank (graphs : List (String × List Quad)) :
    (getInitalCodexMap graphs = .error .unrepresentable ↔
      ∃ gq ∈ graphs, ∃ q ∈ gq.2,
        q.subject.isBlank = true ∧ q.predicate.isBlank = true ∧
          q.object.isBlank = true) ∧
    ∀ e, getInitalCodexMap graphs = .error e → e = .unrepresentable := by
  constructor
  · rw [getInitalCodexMap_eq_error, processGraphs_error_iff graphs {}]
    simp [Quad.allBlank, Bool.and_eq_true, and_assoc]
  · intro e h
    exact processGraphs_error_elim graphs (getInitalCodexMap_eq_error.mp h)

/-- C4 counterexample: the claim as stated is false on the statement
`(?x, ?x, ?x)` — all three positions are variables but not pairwise
distinct, yet compilation fails (so the "only if ... pairwise distinct"
direction does not hold on the code). -/
theorem C4_counterexample_repeated_variable :
    getInitalCodexMap [("g", [⟨.blank "x", .blank "x", .blank "x"⟩])] =
        .error .unrepresentable ∧
      ¬ ∃ gq ∈ [("g", [(⟨.blank "x", .blank "x", .blank "x"⟩ : Quad)])],
          ∃ q ∈ gq.2,
            q.subject.isBlank = true ∧ q.predicate.isBlank = true ∧
              q.object.isBlank = true ∧ q.subject ≠ q.predicate ∧
              q.predicate ≠ q.object ∧ q.subject ≠ q.object := by
  decide

/-- Witness: the amended failure condition fires on a concrete fully
variable statement. -/
theorem C4_witness :
    getInitalCodexMap [("g", [⟨.blank "x", .blank "y", .blank "z"⟩])] =
      .error .unrepresentable :=
  (C4_unrepresentable_iff_allBlank _).1.mpr (by decide)

/-! ## C1 -/

/-- C1: evaluating the compiler on the spec §8 scenario (all store
counts 1): `y` is assigned position 1 and carries a past group on
partner `x` at position 0, yet its materialized Dependencies sequence is
empty — the direct dependency `j = 0` is dropped, because
`if j > deps[j]` (codex.go:175) can never fire for `j = 0`. -/
theorem C1_position_zero_dependency_dropped :
    ((compile exFriendGraphs exTxnOne).toOption.map fun r =>
        (r.1, (r.2.1.lookup "y").map fun a =>
          (a.dependencies, a.past.slice.map fun e => (e.1, e.2.1)))) =
      some (["x", "y"], some ([], [("x", 0)])) := by
  decide

/-! ## C2 -/

/-- C2: one dataset, two runs.  The two lists hold exactly the same
(graph name → statements) pairs — only their order differs, and Go fixes
no iteration order for `range dataset.Graphs` — yet the two compilations
return different variable orders (the two variables' aggregate counts
tie, so the stable sort keeps the differing first-seen orders). -/
theorem C2_graph_iteration_order_changes_variable_order :
    exPermGraphsA.Perm exPermGraphsB ∧
      (compile exPermGraphsA exTxnOne).toOption.map (fun r => r.1) =
        some ["x", "y"] ∧
      (compile exPermGraphsB exTxnOne).toOption.map (fun r => r.1) =
        some ["y", "x"] := by
  decide

/-! ## C3 -/

instance codexLessTotal (index : List (String × Codex)) :
    IsTotal String (codexLess index) :=
  ⟨fun _ _ => Nat.le_total _ _⟩

instance codexLessTrans (index : List (String × Codex)) :
    IsTrans String (codexLess index) :=
  ⟨fun _ _ _ hxy hyz => Nat.le_trans hyz hxy⟩

/-- C3: the variable order returned by `getAssignmentTree` is a stable
sort of the pre-sort slice: it is a permutation of the classification's
first-seen slice, pairwise descending in post-probe aggregate `Count`,
and any two ids whose counts tie keep their relative first-seen order.
The pre-sort slice itself is duplicate-free, listing each variable once
in first-`GetCodex` order. -/
theorem C3_stable_descending_sort (graphs : List (String × List Quad))
    (txn : Txn) {consts : List Nat} {arena : List Reference} {cm : CodexMap}
    {index' : List (String × Codex)} {arena' : List Reference}
    {r : List String × List (String × Assignment) × List Reference}
    (hcm : getInitalCodexMap graphs = .ok (consts, arena, cm))
    (hp : probePhase txn cm.index arena = .ok (index', arena'))
    (hg : cm.getAssignmentTree txn arena = .ok r) :
    r.1.Perm cm.slice ∧
    r.1.Pairwise (fun x y =>
      ((index'.lookup y).getD {}).count ≤ ((index'.lookup x).getD {}).count) ∧
    (∀ x y, [x, y].Sublist cm.slice →
      ((index'.lookup x).getD {}).count = ((index'.lookup y).getD {}).count →
      [x, y].Sublist r.1) ∧
    cm.slice.Nodup := by
  have hr1 : r.1 = cm.slice.insertionSort (codexLess index') := by
    rw [CodexMap.getAssignmentTree] at hg
    rw [hp] at hg
    dsimp only at hg
    rcases hres : resolvePhase txn index'
        (cm.slice.insertionSort (codexLess index')) 0 [] [] arena' with
      err | ⟨asgn, arena''⟩
    · rw [hres] at hg
      cases hg
    · rw [hres] at hg
      cases hg
      rfl
  rw [hr1]
  refine ⟨List.perm_insertionSort _ _, ?_, ?_, (getInitalCodexMap_wf hcm).1⟩
  · exact List.sorted_insertionSort (codexLess index') cm.slice
  · intro x y hsub heq
    exact List.pair_sublist_insertionSort (le_of_eq heq.symm) hsub

/-- The classification stage of the spec §8 scenario. -/
def exClass : List Nat × List Reference × CodexMap :=
  (getInitalCodexMap exFriendGraphs).toOption.getD ([], [], {})

/-- The probe stage of the spec §8 scenario against `exTxnOne`. -/
def exProbe : List (String × Codex) × List Reference :=
  (probePhase exTxnOne exClass.2.2.index exClass.2.1).toOption.getD ([], [])

/-- The assignment-tree stage of the spec §8 scenario against
`exTxnOne`. -/
def exTree : List String × List (String × Assignment) × List Reference :=
  (exClass.2.2.getAssignmentTree exTxnOne exClass.2.1).toOption.getD ([], [], [])

/-- Witness: the sort properties on the concrete spec §8 scenario. -/
theorem C3_witness :
    exTree.1.Perm exClass.2.2.slice ∧
    exTree.1.Pairwise (fun x y =>
      ((exProbe.1.lookup y).getD {}).count ≤ ((exProbe.1.lookup x).getD {}).count) ∧
    (∀ x y, [x, y].Sublist exClass.2.2.slice →
      ((exProbe.1.lookup x).getD {}).count = ((exProbe.1.lookup y).getD {}).count →
      [x, y].Sublist exTree.1) ∧
    exClass.2.2.slice.Nodup :=
  C3_stable_descending_sort exFriendGraphs exTxnOne (by rfl) (by rfl) (by rfl)

/-! ## C7 -/

theorem lookup_append {α : Type} {l1 l2 : List (String × α)} {x : String} :
    (l1 ++ l2).lookup x =
      match l1.lookup x with
      | some v => some v
      | none => l2.lookup x := by
  induction l1 with
  | nil => simp [List.lookup]
  | cons e l1 ih =>
    by_cases h : x = e.1
    · simp [List.lookup, beq_iff_eq.mpr h]
    · simp [List.lookup, beq_eq_false_iff_ne.mpr h, ih]

theorem lookup_map_update {α : Type} (l : List (String × α)) (id x : String)
    (f : α → α) :
    ((l.map fun e => if e.1 = id then (e.1, f e.2) else e).lookup x) =
      if x = id then (l.lookup x).map f else l.lookup x := by
  induction l with
  | nil => by_cases h : x = id <;> simp [List.lookup, h]
  | cons e l ih =>
    rw [List.map_cons]
    by_cases he1 : e.1 = id
    · rw [if_pos he1]
      by_cases hx : x = e.1
      · have hbeq : (x == e.1) = true := beq_iff_eq.mpr hx
        have hid : x = id := hx.trans he1
        simp only [List.lookup, hbeq]
        simp [hid]
      · have hbeq : (x == e.1) = false := beq_eq_false_iff_ne.mpr hx
        simp only [List.lookup, hbeq]
        exact ih
    · rw [if_neg he1]
      by_cases hx : x = e.1
      · have hbeq : (x == e.1) = true := beq_iff_eq.mpr hx
        have hid : ¬ x = id := fun hc => he1 (hx.symm.trans hc)
        simp only [List.lookup, hbeq]
        simp [hid]
      · have hbeq : (x == e.1) = false := beq_eq_false_iff_ne.mpr hx
        simp only [List.lookup, hbeq]
        exact ih

theorem find_getCodex_self (c : CodexMap) (id : String) :
    (c.getCodex id).find id = c.find id := by
  by_cases hm : id ∈ c.index.map Prod.fst
  · rw [getCodex_of_mem hm]
  · rw [getCodex_of_not_mem hm, CodexMap.find, CodexMap.find]
    dsimp only
    rw [lookup_append]
    rcases hl : c.index.lookup id with _ | v
    · simp [List.lookup]
    · exact absurd (lookup_isSome_iff.mp (by rw [hl]; rfl)) hm

theorem find_getCodex_other {c : CodexMap} {id x : String} (h : x ≠ id) :
    (c.getCodex id).find x = c.find x := by
  by_cases hm : id ∈ c.index.map Prod.fst
  · rw [getCodex_of_mem hm]
  · rw [getCodex_of_not_mem hm, CodexMap.find, CodexMap.find]
    dsimp only
    rw [lookup_append]
    rcases hl : c.index.lookup x with _ | v
    · simp [List.lookup, beq_eq_false_iff_ne.mpr h]
    · rfl

theorem lookup_getCodex_self (c : CodexMap) (id : String) :
    (c.getCodex id).index.lookup id = some (c.find id) := by
  have hm : id ∈ (c.getCodex id).index.map Prod.fst := by
    by_cases hm : id ∈ c.index.map Prod.fst
    · rw [getCodex_of_mem hm]
      exact hm
    · rw [getCodex_of_not_mem hm]
      simp
  have := lookup_isSome_iff.mpr hm
  rcases hl : (c.getCodex id).index.lookup id with _ | v
  · rw [hl] at this
    cases this
  · have hv : (c.getCodex id).find id = v := by
      rw [CodexMap.find, hl]
      rfl
    rw [← hv, find_getCodex_self]

theorem find_modifyCodex_self (c : CodexMap) (id : String) (f : Codex → Codex) :
    (c.modifyCodex id f).find id = f (c.find id) := by
  rw [CodexMap.modifyCodex, CodexMap.find]
  dsimp only
  rw [lookup_map_update, if_pos rfl, lookup_getCodex_self]
  rfl

theorem find_modifyCodex_other {c : CodexMap} {id x : String}
    (f : Codex → Codex) (h : x ≠ id) :
    (c.modifyCodex id f).find x = c.find x := by
  rw [CodexMap.modifyCodex, CodexMap.find]
  dsimp only
  rw [lookup_map_update, if_neg h, ← CodexMap.find, find_getCodex_other h]

theorem lookup_insertDoubleList_self (d : List (String × List Nat))
    (b : String) (p : Nat) :
    (insertDoubleList d b p).lookup b = some (((d.lookup b).getD []) ++ [p]) := by
  induction d with
  | nil => simp [insertDoubleList, List.lookup]
  | cons e d ih =>
    rw [insertDoubleList]
    by_cases h : e.1 = b
    · rw [if_pos h]
      simp [List.lookup, beq_iff_eq.mpr h.symm]
    · rw [if_neg h]
      simp [List.lookup, beq_eq_false_iff_ne.mpr (fun hc : b = e.1 => h hc.symm),
        ih]

theorem lookup_insertDoubleList_other {d : List (String × List Nat)}
    {b x : String} (p : Nat) (h : x ≠ b) :
    (insertDoubleList d b p).lookup x = d.lookup x := by
  induction d with
  | nil => simp [insertDoubleList, List.lookup, beq_eq_false_iff_ne.mpr h]
  | cons e d ih =>
    rw [insertDoubleList]
    by_cases he : e.1 = b
    · rw [if_pos he]
      simp [List.lookup, beq_eq_false_iff_ne.mpr (fun hc => h (hc.trans he))]
    · rw [if_neg he]
      by_cases hx : e.1 = x
      · simp [List.lookup, beq_iff_eq.mpr hx.symm]
      · simp [List.lookup, beq_eq_false_iff_ne.mpr (Ne.symm hx), ih]

/-- The reference group registered in `x`'s codex under partner `y`. -/
def doubleGroup (c : CodexMap) (x y : String) : List Nat :=
  (((c.find x).double).lookup y).getD []

theorem doubleGroup_insertDouble_self (c : CodexMap) (a b : String) (p : Nat) :
    doubleGroup (c.insertDouble a b p) a b = doubleGroup c a b ++ [p] := by
  rw [doubleGroup, CodexMap.insertDouble, find_modifyCodex_self]
  dsimp only
  rw [lookup_insertDoubleList_self]
  rfl

theorem doubleGroup_insertDouble_other_var {c : CodexMap} {x a : String}
    (y b : String) (p : Nat) (h : x ≠ a) :
    doubleGroup (c.insertDouble a b p) x y = doubleGroup c x y := by
  rw [doubleGroup, CodexMap.insertDouble, find_modifyCodex_other _ h, doubleGroup]

theorem doubleGroup_insertDouble_other_key {c : CodexMap} {a b y : String}
    (p : Nat) (h : y ≠ b) :
    doubleGroup (c.insertDouble a b p) a y = doubleGroup c a y := by
  rw [doubleGroup, CodexMap.insertDouble, find_modifyCodex_self]
  dsimp only
  rw [lookup_insertDoubleList_other _ h, doubleGroup]

/-- C7: for a statement holding exactly two distinct variables `a`, `b`
(in position order) and one constant, classification creates exactly two
references in the same pass — the arena grows by exactly the pair — and
inserts the first into `a`'s codex under key `b`, the second into `b`'s
codex under key `a`, with the `Dual` links of the pair pointing at each
other. -/
theorem C7_double_pair_registration (graph : String) (index : Nat) (q : Quad)
    (st : ClassState) (a b : String) (hab : a ≠ b)
    (h : (q.subject = .blank a ∧ q.predicate = .blank b ∧
            q.object.isBlank = false) ∨
         (q.subject = .blank a ∧ q.object = .blank b ∧
            q.predicate.isBlank = false) ∨
         (q.predicate = .blank a ∧ q.object = .blank b ∧
            q.subject.isBlank = false)) :
    ∃ st' refA refB,
      processQuad graph index q st = .ok st' ∧
      st'.arena = st.arena ++ [refA, refB] ∧
      refA.dual = some (st.arena.length + 1) ∧
      refB.dual = some st.arena.length ∧
      st'.constants = st.constants ∧
      doubleGroup st'.codexMap a b =
        doubleGroup st.codexMap a b ++ [st.arena.length] ∧
      doubleGroup st'.codexMap b a =
        doubleGroup st.codexMap b a ++ [st.arena.length + 1] := by
  rcases q with ⟨s, pr, o⟩
  rcases h with ⟨hs, hp, ho⟩ | ⟨hs, ho, hp⟩ | ⟨hp, ho, hs⟩
  · subst hs
    subst hp
    rcases o with oa | ov
    · simp [Node.isBlank] at ho
    · have hq : processQuad graph index ⟨Node.blank a, Node.blank b, Node.leaf ov⟩ st = .ok
          { st with
            arena := st.arena ++
              [{ (makeReference graph index permutationA (some (Node.blank b))
                    (some (Node.leaf ov))) with
                  dual := some (st.arena.length + 1) },
               { (makeReference graph index permutationB (some (Node.leaf ov))
                    (some (Node.blank a))) with
                  dual := some st.arena.length }]
            codexMap := (st.codexMap.insertDouble a b st.arena.length).insertDouble
              b a (st.arena.length + 1) } := by
        rw [processQuad]
        simp [Node.isBlank, Node.attr, hab, Ne.symm hab]
      refine ⟨_, _, _, hq, rfl, rfl, rfl, rfl, ?_, ?_⟩
      · rw [doubleGroup_insertDouble_other_var b a (st.arena.length + 1) hab,
          doubleGroup_insertDouble_self]
      · rw [doubleGroup_insertDouble_self,
          doubleGroup_insertDouble_other_var a b st.arena.length
            (fun hc => hab hc.symm)]
  · subst hs
    subst ho
    rcases pr with pa | pv
    · simp [Node.isBlank] at hp
    · have hq : processQuad graph index ⟨Node.blank a, Node.leaf pv, Node.blank b⟩ st = .ok
          { st with
            arena := st.arena ++
              [{ (makeReference graph index permutationA (some (Node.leaf pv))
                    (some (Node.blank b))) with
                  dual := some (st.arena.length + 1) },
               { (makeReference graph index permutationC (some (Node.blank a))
                    (some (Node.leaf pv))) with
                  dual := some st.arena.length }]
            codexMap := (st.codexMap.insertDouble a b st.arena.length).insertDouble
              b a (st.arena.length + 1) } := by
        rw [processQuad]
        simp [Node.isBlank, Node.attr, hab, Ne.symm hab]
      refine ⟨_, _, _, hq, rfl, rfl, rfl, rfl, ?_, ?_⟩
      · rw [doubleGroup_insertDouble_other_var b a (st.arena.length + 1) hab,
          doubleGroup_insertDouble_self]
      · rw [doubleGroup_insertDouble_self,
          doubleGroup_insertDouble_other_var a b st.arena.length
            (fun hc => hab hc.symm)]
  · subst hp
    subst ho
    rcases s with sa | sv
    · simp [Node.isBlank] at hs
    · have hq : processQuad graph index ⟨Node.leaf sv, Node.blank a, Node.blank b⟩ st = .ok
          { st with
            arena := st.arena ++
              [{ (makeReference graph index permutationB (some (Node.blank b))
                    (some (Node.leaf sv))) with
                  dual := some (st.arena.length + 1) },
               { (makeReference graph index permutationC (some (Node.leaf sv))
                    (some (Node.blank a))) with
                  dual := some st.arena.length }]
            codexMap := (st.codexMap.insertDouble a b st.arena.length).insertDouble
              b a (st.arena.length + 1) } := by
        rw [processQuad]
        simp [Node.isBlank, Node.attr, hab, Ne.symm hab]
      refine ⟨_, _, _, hq, rfl, rfl, rfl, rfl, ?_, ?_⟩
      · rw [doubleGroup_insertDouble_other_var b a (st.arena.length + 1) hab,
          doubleGroup_insertDouble_self]
      · rw [doubleGroup_insertDouble_self,
          doubleGroup_insertDouble_other_var a b st.arena.length
            (fun hc => hab hc.symm)]

/-- Witness: the pair registration on a concrete two-variable
statement `(?a, ?b, o)` processed from the empty state. -/
theorem C7_witness :
    ∃ st' refA refB,
      processQuad "g" 0 ⟨.blank "a", .blank "b", .leaf "o"⟩ ({} : ClassState) =
          .ok st' ∧
      st'.arena = ({} : ClassState).arena ++ [refA, refB] ∧
      refA.dual = some (({} : ClassState).arena.length + 1) ∧
      refB.dual = some ({} : ClassState).arena.length ∧
      st'.constants = ({} : ClassState).constants ∧
      doubleGroup st'.codexMap "a" "b" =
        doubleGroup ({} : ClassState).codexMap "a" "b" ++
          [({} : ClassState).arena.length] ∧
      doubleGroup st'.codexMap "b" "a" =
        doubleGroup ({} : ClassState).codexMap "b" "a" ++
          [({} : ClassState).arena.length + 1] :=
  C7_double_pair_registration "g" 0 ⟨.blank "a", .blank "b", .leaf "o"⟩ {} "a" "b"
    (by decide) (Or.inl ⟨rfl, rfl, rfl⟩)

/-! ## C5 -/

/-- C5: if any `single` or `double` reference's probed count is zero —
including the case of a key absent from the snapshot, which `getCount`
maps to count zero without an error — then `getAssignmentTree` aborts
with an error, returning no variable order and no assignment map. -/
theorem C5_zero_count_aborts (cm : CodexMap) (txn : Txn)
    (arena : List Reference)
    (h : ∃ e ∈ cm.index,
      (∃ p ∈ e.2.single,
        txn.counts (keyAt arena p) = none ∨ getCount txn (keyAt arena p) = 0) ∨
      ∃ g ∈ e.2.double, ∃ p ∈ g.2,
        txn.counts (keyAt arena p) = none ∨ getCount txn (keyAt arena p) = 0) :
    ∃ err, cm.getAssignmentTree txn arena = .error err := by
  rcases hg : cm.getAssignmentTree txn arena with err | r
  · exact ⟨err, rfl⟩
  · exfalso
    obtain ⟨index', arena', hp⟩ := getAssignmentTree_ok_probePhase hg
    obtain ⟨_, _, _, hz, _, _⟩ := probePhase_ok txn cm.index arena hp
    obtain ⟨e, he, hcase⟩ := h
    obtain ⟨z1, z2⟩ := hz e he
    rcases hcase with ⟨p, hmem, hzero⟩ | ⟨g, hgmem, p, hmem, hzero⟩
    · refine z1 p hmem ?_
      rcases hzero with hnone | h0
      · simp [countAt, getCount, hnone]
      · exact h0
    · refine z2 p (mem_doubleRefs.mpr ⟨g, hgmem, hmem⟩) ?_
      rcases hzero with hnone | h0
      · simp [countAt, getCount, hnone]
      · exact h0

/-- A codex map holding one variable with one single reference at arena
position 0. -/
def exZeroCm : CodexMap :=
  { index := [("x", { single := [0] })], slice := ["x"] }

/-- The arena for `exZeroCm`: one single reference. -/
def exZeroArena : List Reference :=
  [{ graph := "g"
     index := 0
     permutation := 0
     m := some (.leaf "p")
     n := some (.leaf "o")
     cursor := none
     dual := none }]

/-- A snapshot with no keys at all: every probe comes back absent. -/
def exTxnEmpty : Txn :=
  { counts := fun _ => none, valueRoot := fun _ => some ["v"] }

/-- Witness: probing a reference against an empty snapshot (absent key,
count zero) aborts the assignment tree. -/
theorem C5_witness :
    ∃ err, exZeroCm.getAssignmentTree exTxnEmpty exZeroArena = .error err :=
  C5_zero_count_aborts exZeroCm exTxnEmpty exZeroArena (by decide)

/-! ## Resolution-phase lemmas -/

theorem pushGroup_slice (dep : String) :
    ∀ (ps : List Nat) (k : Nat) (arena : List Reference) (past : Past),
      (pushGroup dep ps k arena past).2.slice = past.slice := by
  intro ps
  induction ps with
  | nil =>
    intro k arena past
    rfl
  | cons p ps ih =>
    intro k arena past
    rw [pushGroup, ih]
    rfl

theorem pushGroup_cursors (dep : String) :
    ∀ (ps : List Nat) (k : Nat) (arena : List Reference) (past : Past),
      ∀ c ∈ (pushGroup dep ps k arena past).2.cursors,
        c ∈ past.cursors ∨ c.id = dep := by
  intro ps
  induction ps with
  | nil =>
    intro k arena past c hc
    exact Or.inl hc
  | cons p ps ih =>
    intro k arena past c hc
    rw [pushGroup] at hc
    rcases ih _ _ _ c hc with hmem | hid
    · rcases List.mem_append.mp hmem with hmem | hmem
      · exact Or.inl hmem
      · rcases List.mem_singleton.mp hmem with rfl
        exact Or.inr rfl
    · exact Or.inr hid

theorem pushGroup_arena (dep : String) :
    ∀ (ps : List Nat) (k : Nat) (arena : List Reference) (past : Past),
      (∀ q, q ∉ ps →
        refAt (pushGroup dep ps k arena past).1 q = refAt arena q) ∧
      (pushGroup dep ps k arena past).1.length = arena.length ∧
      (∀ q, (refAt arena q).cursor.isSome = true →
        (refAt (pushGroup dep ps k arena past).1 q).cursor.isSome = true ∧
        (refAt (pushGroup dep ps k arena past).1 q).cursor.map Cursor.count =
          (refAt arena q).cursor.map Cursor.count) := by
  intro ps
  induction ps with
  | nil =>
    intro k arena past
    exact ⟨fun q _ => rfl, rfl, fun q h => ⟨h, rfl⟩⟩
  | cons p ps ih =>
    intro k arena past
    rw [pushGroup]
    set ref := arena.getD p default with href
    set cur := { ref.cursor.getD {} with id := dep, index := k } with hcur
    set arena1 := arena.set p { ref with cursor := some cur } with harena1
    obtain ⟨ihframe, ihlen, ihcur⟩ := ih (k + 1) arena1
      { past.insertIndex dep k past.cursors.length with
        cursors := (past.insertIndex dep k past.cursors.length).cursors ++ [cur] }
    have hframe1 : ∀ q, q ≠ p → refAt arena1 q = refAt arena q := by
      intro q hq
      rw [refAt, harena1, getD_set]
      simp [hq, refAt]
    have hlen1 : arena1.length = arena.length := List.length_set ..
    refine ⟨?_, by rw [ihlen, hlen1], ?_⟩
    · intro q hq
      rw [ihframe q (fun hc => hq (List.mem_cons_of_mem _ hc)),
        hframe1 q (fun hc => hq (hc ▸ List.mem_cons_self p ps))]
    · intro q hsome
      by_cases hqp : q = p
      · subst hqp
        by_cases hlt : q < arena.length
        · have hset : refAt arena1 q = { ref with cursor := some cur } := by
            rw [refAt, harena1, getD_set]
            simp [hlt]
          rcases hcv : ref.cursor with _ | c
          · rw [refAt, ← href, hcv] at hsome
            cases hsome
          · have h1 : (refAt arena1 q).cursor.isSome = true := by
              rw [hset]
              rfl
            have h2 : (refAt arena1 q).cursor.map Cursor.count =
                (refAt arena q).cursor.map Cursor.count := by
              rw [hset, refAt, ← href, hcv]
              simp [hcur, hcv]
            obtain ⟨g1, g2⟩ := ihcur q h1
            exact ⟨g1, by rw [g2, h2]⟩
        · have hfr : refAt arena1 q = refAt arena q := by
            rw [refAt, harena1, getD_set]
            simp [hlt, refAt]
          obtain ⟨g1, g2⟩ := ihcur q (by rw [hfr]; exact hsome)
          exact ⟨g1, by rw [g2, hfr]⟩
      · obtain ⟨g1, g2⟩ := ihcur q (by rw [hframe1 q hqp]; exact hsome)
        exact ⟨g1, by rw [g2, hframe1 q hqp]⟩

theorem resolveDoubles_props (indexMap : List (String × Nat))
    (index : List (String × Assignment)) :
    ∀ (gs : List (String × List Nat)) (rs : ResolveState),
      (∀ c ∈ (resolveDoubles indexMap index gs rs).past.cursors,
        c ∈ rs.past.cursors ∨
          ∃ g ∈ gs, c.id = g.1 ∧ (indexMap.lookup g.1).isSome = true) ∧
      (resolveDoubles indexMap index gs rs).future =
        rs.future ++ gs.filter (fun g => (indexMap.lookup g.1).isNone) ∧
      (∀ q, (∀ g ∈ gs, q ∉ g.2) →
        refAt (resolveDoubles indexMap index gs rs).arena q =
          refAt rs.arena q) ∧
      (resolveDoubles indexMap index gs rs).arena.length = rs.arena.length ∧
      (∀ q, (refAt rs.arena q).cursor.isSome = true →
        (refAt (resolveDoubles indexMap index gs rs).arena q).cursor.isSome = true ∧
        (refAt (resolveDoubles indexMap index gs rs).arena q).cursor.map
            Cursor.count =
          (refAt rs.arena q).cursor.map Cursor.count) := by
  intro gs
  induction gs with
  | nil =>
    intro rs
    refine ⟨fun c hc => Or.inl hc, by simp [resolveDoubles], fun q _ => rfl, rfl,
      fun q h => ⟨h, rfl⟩⟩
  | cons g gs ih =>
    intro rs
    rw [resolveDoubles]
    rcases hl : indexMap.lookup g.1 with _ | j
    · obtain ⟨ihc, ihf, ihframe, ihlen, ihcur⟩ :=
        ih { rs with future := rs.future ++ [g] }
      refine ⟨?_, ?_, ?_, ihlen, ihcur⟩
      · intro c hc
        rcases ihc c hc with hmem | ⟨g', hg', hid, hsome⟩
        · exact Or.inl hmem
        · exact Or.inr ⟨g', List.mem_cons_of_mem _ hg', hid, hsome⟩
      · rw [ihf]
        have : (List.filter (fun g => (indexMap.lookup g.1).isNone) (g :: gs)) =
            g :: gs.filter (fun g => (indexMap.lookup g.1).isNone) := by
          rw [List.filter_cons]
          simp [hl]
        rw [this]
        simp
      · intro q hq
        exact ihframe q (fun g' hg' => hq g' (List.mem_cons_of_mem _ hg'))
    · set past1 := rs.past.push g.1 j g.2 with hpast1
      set pg := pushGroup g.1 g.2 0 rs.arena past1 with hpg
      obtain ⟨pgframe, pglen, pgcur⟩ := pushGroup_arena g.1 g.2 0 rs.arena past1
      obtain ⟨ihc, ihf, ihframe, ihlen, ihcur⟩ :=
        ih { rs with
              arena := pg.1
              past := pg.2
              deps := absorbDeps j ((index.lookup g.1).getD {}).dependencies
                (if j > depsGet rs.deps j then depsSet rs.deps j j else rs.deps) }
      refine ⟨?_, ?_, ?_, ?_, ?_⟩
      · intro c hc
        rcases ihc c hc with hmem | ⟨g', hg', hid, hsome⟩
        · rcases pushGroup_cursors g.1 g.2 0 rs.arena past1 c hmem with hmem | hid
          · exact Or.inl hmem
          · exact Or.inr ⟨g, List.mem_cons_self g gs, hid, by rw [hl]; rfl⟩
        · exact Or.inr ⟨g', List.mem_cons_of_mem _ hg', hid, hsome⟩
      · rw [ihf]
        have : (List.filter (fun g => (indexMap.lookup g.1).isNone) (g :: gs)) =
            gs.filter (fun g => (indexMap.lookup g.1).isNone) := by
          rw [List.filter_cons]
          simp [hl]
        rw [this]
      · intro q hq
        rw [ihframe q (fun g' hg' => hq g' (List.mem_cons_of_mem _ hg')),
          pgframe q (hq g (List.mem_cons_self g gs))]
      · rw [ihlen, pglen]
      · intro q hsome
        obtain ⟨p1, p2⟩ := pgcur q hsome
        obtain ⟨q1, q2⟩ := ihcur q p1
        exact ⟨q1, by rw [q2, p2]⟩

theorem lookup_mem {α : Type} : ∀ {l : List (String × α)} {x : String} {v : α},
    l.lookup x = some v → (x, v) ∈ l := by
  intro l
  induction l with
  | nil =>
    intro x v h
    cases h
  | cons e l ih =>
    intro x v h
    rw [List.lookup] at h
    rcases hbeq : x == e.1 with _ | _
    · rw [hbeq] at h
      exact List.mem_cons_of_mem _ (ih h)
    · rw [hbeq] at h
      rcases e with ⟨k, w⟩
      cases h
      have : x = k := beq_iff_eq.mp hbeq
      subst this
      exact List.mem_cons_self _ _

/-- The per-position past/future property of an assignment: the variable
sits at its slice position, every past cursor names a `double` partner
assigned at a strictly earlier position, and every `double` group whose
partner sits at a strictly later position is kept verbatim in `future`
under the partner's id. -/
def pastFutureOK (cmIndex : List (String × Codex)) (slice : List String)
    (k : Nat) (id0 : String) (a0 : Assignment) : Prop :=
  slice[k]? = some id0 ∧
  (∀ c ∈ a0.past.cursors,
    ∃ j, j < k ∧ slice[j]? = some c.id ∧
      c.id ∈ ((cmIndex.lookup id0).getD {}).double.map Prod.fst) ∧
  ∀ g ∈ ((cmIndex.lookup id0).getD {}).double, ∀ j,
    slice[j]? = some g.1 → k < j → (g.1, g.2) ∈ a0.future

theorem resolvePhase_pastFuture (txn : Txn) (cmIndex : List (String × Codex))
    (slice : List String) (hnd : slice.Nodup)
    (hself : ∀ id, id ∉ ((cmIndex.lookup id).getD {}).double.map Prod.fst) :
    ∀ (ids : List String) (i : Nat) (indexMap : List (String × Nat))
      (index : List (String × Assignment)) (arena : List Reference)
      {asgn : List (String × Assignment)} {arena' : List Reference},
      resolvePhase txn cmIndex ids i indexMap index arena = .ok (asgn, arena') →
      i = indexMap.length →
      slice = indexMap.map Prod.fst ++ ids →
      (∀ x j, indexMap.lookup x = some j ↔ j < i ∧ slice[j]? = some x) →
      index.length = i →
      (∀ k id0 a0, index[k]? = some (id0, a0) →
        pastFutureOK cmIndex slice k id0 a0) →
      (∀ k id0 a0, asgn[k]? = some (id0, a0) →
        pastFutureOK cmIndex slice k id0 a0) ∧
      asgn.length = i + ids.length := by
  intro ids
  induction ids with
  | nil =>
    intro i indexMap index arena asgn arena' h hi hslice hchar hlen hprop
    rw [resolvePhase] at h
    cases h
    exact ⟨hprop, by simp [hlen, hi]⟩
  | cons id ids ih =>
    intro i indexMap index arena asgn arena' h hi hslice hchar hlen hprop
    have hgetI : slice[i]? = some id := by
      rw [hslice, List.getElem?_append_right (by rw [List.length_map]; omega)]
      simp [hi]
    rw [resolvePhase] at h
    rcases hroot : txn.valueRoot
        ((((cmIndex.lookup id).getD {}).single).map fun p =>
          (resolveDoubles (indexMap ++ [(id, i)]) index
            (((cmIndex.lookup id).getD {}).double)
            { arena := arena }).arena.getD p default) with _ | root
    · rw [hroot] at h
      cases h
    · rw [hroot] at h
      set cx := (cmIndex.lookup id).getD {} with hcx
      set rs := resolveDoubles (indexMap ++ [(id, i)]) index cx.double
        { arena := arena } with hrs
      obtain ⟨rsc, rsf, _, _, _⟩ := resolveDoubles_props (indexMap ++ [(id, i)])
        index cx.double { arena := arena }
      rw [← hrs] at rsc rsf
      have hlen_slice : ∀ {j : Nat} {x : String}, slice[j]? = some x →
          j < slice.length := by
        intro j x hg
        rw [List.getElem?_eq_some] at hg
        exact hg.1
      have hinj : ∀ {j j' : Nat} {x : String}, slice[j]? = some x →
          slice[j']? = some x → j = j' := by
        intro j j' x hg hg'
        exact List.getElem?_inj (hlen_slice hg) hnd (by rw [hg, hg'])
      have hchar' : ∀ x j, (indexMap ++ [(id, i)]).lookup x = some j ↔
          j < i + 1 ∧ slice[j]? = some x := by
        intro x j
        rw [lookup_append]
        rcases hl : indexMap.lookup x with _ | j0
        · rw [List.lookup]
          by_cases hx : x = id
          · rw [beq_iff_eq.mpr hx]
            constructor
            · rintro h'
              cases h'
              exact ⟨Nat.lt_succ_self i, hx ▸ hgetI⟩
            · rintro ⟨hj, hg⟩
              have hji : j = i := by
                rcases Nat.lt_succ_iff_lt_or_eq.mp hj with hj' | rfl
                · exact absurd (hinj hg (hx ▸ hgetI)) (by omega)
                · rfl
              rw [hji]
          · rw [beq_eq_false_iff_ne.mpr hx]
            constructor
            · rintro h'
              cases h'
            · rintro ⟨hj, hg⟩
              rcases Nat.lt_succ_iff_lt_or_eq.mp hj with hj' | rfl
              · exfalso
                have hmem : x ∈ indexMap.map Prod.fst := by
                  have heq : slice[j]? = (indexMap.map Prod.fst)[j]? := by
                    rw [hslice, List.getElem?_append_left
                      (by rw [List.length_map, ← hi]; exact hj')]
                  rw [heq] at hg
                  exact List.getElem?_mem hg
                rw [← lookup_isSome_iff, hl] at hmem
                cases hmem
              · rw [hgetI] at hg
                exact ((hx (Option.some.inj hg).symm).elim)
        · constructor
          · rintro h'
            cases h'
            exact ⟨Nat.lt_succ_of_lt ((hchar x j).mp hl).1, ((hchar x j).mp hl).2⟩
          · rintro ⟨hj, hg⟩
            obtain ⟨hj0, hg0⟩ := (hchar x j0).mp hl
            rw [hinj hg hg0]
      have hmapfst : (indexMap ++ [(id, i)]).map Prod.fst =
          indexMap.map Prod.fst ++ [id] := by
        simp
      have hslice' : slice = (indexMap ++ [(id, i)]).map Prod.fst ++ ids := by
        rw [hmapfst, hslice, List.append_assoc]
        rfl
      have hselfkeys : id ∉ cx.double.map Prod.fst := hself id
      have hnewOK : pastFutureOK cmIndex slice i id
          { constraint := cx.constraint
            present := cx.single
            past := rs.past.sortOrder
            future := rs.future
            dependencies := (rs.deps.map Prod.fst).insertionSort (· ≤ ·)
            valueRoot := some root } := by
        refine ⟨hgetI, ?_, ?_⟩
        · intro c hc
          have hc' : c ∈ rs.past.cursors := by
            simpa [Past.sortOrder] using hc
          rcases rsc c hc' with hmem | ⟨g, hg, hid, hsome⟩
          · cases hmem
          · rcases hs : (indexMap ++ [(id, i)]).lookup g.1 with _ | j
            · rw [hs] at hsome
              cases hsome
            · obtain ⟨hj, hgj⟩ := (hchar' g.1 j).mp hs
              have hne : g.1 ≠ id := by
                intro hc2
                exact hselfkeys (hc2 ▸ List.mem_map_of_mem Prod.fst hg)
              have hji : j < i := by
                rcases Nat.lt_succ_iff_lt_or_eq.mp hj with hj' | rfl
                · exact hj'
                · exact ((hne (Option.some.inj (hgj.symm.trans hgetI))).elim)
              exact ⟨j, hji, hid ▸ hgj, hid ▸ List.mem_map_of_mem Prod.fst hg⟩
        · intro g hg j hgj hij
          have hpred : ((indexMap ++ [(id, i)]).lookup g.1).isNone = true := by
            rcases hs : (indexMap ++ [(id, i)]).lookup g.1 with _ | j'
            · rfl
            · obtain ⟨hj', hgj'⟩ := (hchar' g.1 j').mp hs
              exact absurd (hinj hgj hgj') (by omega)
          have : (g.1, g.2) ∈ rs.future := by
            rw [rsf]
            dsimp only
            refine List.mem_append.mpr (Or.inr ?_)
            rw [List.mem_filter]
            exact ⟨by simpa using hg, hpred⟩
          exact this
      have hext : ∀ k id0 a0,
          (index ++ [(id, { constraint := cx.constraint
                            present := cx.single
                            past := rs.past.sortOrder
                            future := rs.future
                            dependencies :=
                              (rs.deps.map Prod.fst).insertionSort (· ≤ ·)
                            valueRoot := some root })])[k]? = some (id0, a0) →
          pastFutureOK cmIndex slice k id0 a0 := by
        intro k id0 a0 hk
        rcases Nat.lt_or_ge k index.length with hklt | hkge
        · rw [List.getElem?_append_left hklt] at hk
          exact hprop k id0 a0 hk
        · rw [List.getElem?_append_right hkge] at hk
          rcases Nat.eq_or_lt_of_le hkge with heq | hlt2
          · rw [← heq, Nat.sub_self] at hk
            cases hk
            rw [← heq, hlen]
            exact hnewOK
          · rw [List.getElem?_eq_none
              (by simp only [List.length_cons, List.length_nil]; omega)] at hk
            cases hk
      obtain ⟨ihprop, ihlen⟩ := ih (i + 1) (indexMap ++ [(id, i)]) _ _ h
        (by simp [hi]) hslice' hchar' (by simp [hlen, hi]) hext
      refine ⟨ihprop, ?_⟩
      have hls : (id :: ids).length = ids.length + 1 := rfl
      omega

theorem forall₂_lookup {R : Codex → Codex → Prop} :
    ∀ {l l' : List (String × Codex)},
      List.Forall₂ (fun e e' => e.1 = e'.1 ∧ R e.2 e'.2) l l' →
      ∀ x, (l.lookup x = none ∧ l'.lookup x = none) ∨
        ∃ cx cx', l.lookup x = some cx ∧ l'.lookup x = some cx' ∧ R cx cx' := by
  intro l l' h
  induction h with
  | nil =>
    intro x
    exact Or.inl ⟨rfl, rfl⟩
  | cons he ht ih =>
    rename_i a b l1 l2
    intro x
    by_cases hx : x = a.1
    · refine Or.inr ⟨a.2, b.2, ?_, ?_, he.2⟩
      · rw [List.lookup, beq_iff_eq.mpr hx]
      · rw [List.lookup, beq_iff_eq.mpr (he.1 ▸ hx)]
    · have h1 : (x == a.1) = false := beq_eq_false_iff_ne.mpr hx
      have h2 : (x == b.1) = false := beq_eq_false_iff_ne.mpr (he.1 ▸ hx)
      rcases ih x with ⟨hn1, hn2⟩ | ⟨cx, cx', hc1, hc2, hr⟩
      · exact Or.inl ⟨by rw [List.lookup, h1]; exact hn1,
          by rw [List.lookup, h2]; exact hn2⟩
      · exact Or.inr ⟨cx, cx', by rw [List.lookup, h1]; exact hc1,
          by rw [List.lookup, h2]; exact hc2, hr⟩

/-- C8: in a successful `getAssignmentTree`, the assignment map lists one
entry per slice position in order; at position `k`, every Past cursor was
contributed by a `double` group whose partner variable sits at a strictly
earlier position, and every `double` group whose partner sits at a
strictly later position is kept verbatim, under the partner's id, in the
variable's Future map. -/
theorem C8_past_future_partition (cm : CodexMap) (txn : Txn)
    (arena : List Reference) {index' : List (String × Codex)}
    {arena1 : List Reference}
    {r : List String × List (String × Assignment) × List Reference}
    (hw : CodexMapWF cm)
    (hp : probePhase txn cm.index arena = .ok (index', arena1))
    (hg : cm.getAssignmentTree txn arena = .ok r) :
    r.2.1.length = r.1.length ∧
    ∀ (k : Nat) (id0 : String) (a0 : Assignment), r.2.1[k]? = some (id0, a0) →
      r.1[k]? = some id0 ∧
      (∀ c ∈ a0.past.cursors, ∃ j, j < k ∧ r.1[j]? = some c.id ∧
        c.id ∈ ((index'.lookup id0).getD {}).double.map Prod.fst) ∧
      (∀ g ∈ ((index'.lookup id0).getD {}).double, ∀ j, r.1[j]? = some g.1 →
        k < j → (g.1, g.2) ∈ a0.future) := by
  obtain ⟨_, _, hrel, _, _, _⟩ := probePhase_ok txn cm.index arena hp
  have hself : ∀ id, id ∉ ((index'.lookup id).getD {}).double.map Prod.fst := by
    intro id
    rcases forall₂_lookup hrel id with ⟨_, hn⟩ | ⟨cx, cx', hc1, hc2, hr⟩
    · rw [hn]
      simp
    · rw [hc2]
      have hdd : cx'.double = cx.double := hr.2.2.2.2.2
      simp only [Option.getD_some, hdd]
      exact hw.2.2 (id, cx) (lookup_mem hc1)
  rw [CodexMap.getAssignmentTree] at hg
  rw [hp] at hg
  dsimp only at hg
  rcases hres : resolvePhase txn index'
      (cm.slice.insertionSort (codexLess index')) 0 [] [] arena1 with
    err | ⟨asgn, arena2⟩
  · rw [hres] at hg
    cases hg
  · rw [hres] at hg
    cases hg
    dsimp only
    have hnd : (cm.slice.insertionSort (codexLess index')).Nodup :=
      (List.perm_insertionSort _ _).nodup_iff.mpr hw.1
    obtain ⟨hmain, hlen⟩ := resolvePhase_pastFuture txn index'
      (cm.slice.insertionSort (codexLess index')) hnd hself
      (cm.slice.insertionSort (codexLess index')) 0 [] [] arena1 hres rfl rfl
      (by
        intro x j
        constructor
        · rintro h'
          cases h'
        · rintro ⟨hj, _⟩
          exact absurd hj (Nat.not_lt_zero j))
      rfl
      (by
        intro k id0 a0 hk
        rw [List.getElem?_nil] at hk
        cases hk)
    refine ⟨by rw [hlen, Nat.zero_add], ?_⟩
    intro k id0 a0 hk
    exact hmain k id0 a0 hk

/-- Witness: the past/future partition on the concrete spec §8 scenario
(`y` at position 1 carries a past cursor on `x`; `x` at position 0 keeps
its group on `y` in Future). -/
theorem C8_witness :
    exTree.2.1.length = exTree.1.length ∧
    ∀ (k : Nat) (id0 : String) (a0 : Assignment),
      exTree.2.1[k]? = some (id0, a0) →
      exTree.1[k]? = some id0 ∧
      (∀ c ∈ a0.past.cursors, ∃ j, j < k ∧ exTree.1[j]? = some c.id ∧
        c.id ∈ ((exProbe.1.lookup id0).getD {}).double.map Prod.fst) ∧
      (∀ g ∈ ((exProbe.1.lookup id0).getD {}).double, ∀ j,
        exTree.1[j]? = some g.1 → k < j → (g.1, g.2) ∈ a0.future) :=
  C8_past_future_partition exClass.2.2 exTxnOne exClass.2.1
    (by unfold CodexMapWF; decide) (by rfl) (by rfl)

theorem forall₂_mem_right {α : Type} {R : α → α → Prop} :
    ∀ {l l' : List α}, List.Forall₂ R l l' → ∀ y ∈ l', ∃ x ∈ l, R x y := by
  intro l l' h
  induction h with
  | nil =>
    intro y hy
    cases hy
  | @cons a b l1 l2 he ht ih =>
    intro y hy
    rcases List.mem_cons.mp hy with rfl | hy
    · exact ⟨a, List.mem_cons_self a l1, he⟩
    · obtain ⟨x, hx, hr⟩ := ih y hy
      exact ⟨x, List.mem_cons_of_mem _ hx, hr⟩

/-- Arena effects of the whole resolution loop: entries outside every
codex's `double` groups are untouched, the arena length is stable, and a
present cursor is never cleared and keeps its probed count (only the
`ID`/`Index` bookkeeping fields are written). -/
theorem resolvePhase_arena (txn : Txn) (cmIndex : List (String × Codex)) :
    ∀ (ids : List String) (i : Nat) (indexMap : List (String × Nat))
      (index : List (String × Assignment)) (arena : List Reference)
      {asgn : List (String × Assignment)} {arena' : List Reference},
      resolvePhase txn cmIndex ids i indexMap index arena = .ok (asgn, arena') →
      (∀ q, (∀ e ∈ cmIndex, q ∉ doubleRefs e.2.double) →
        refAt arena' q = refAt arena q) ∧
      arena'.length = arena.length ∧
      (∀ q, (refAt arena q).cursor.isSome = true →
        (refAt arena' q).cursor.isSome = true ∧
        (refAt arena' q).cursor.map Cursor.count =
          (refAt arena q).cursor.map Cursor.count) := by
  intro ids
  induction ids with
  | nil =>
    intro i indexMap index arena asgn arena' h
    rw [resolvePhase] at h
    cases h
    exact ⟨fun q _ => rfl, rfl, fun q hq => ⟨hq, rfl⟩⟩
  | cons id ids ih =>
    intro i indexMap index arena asgn arena' h
    rw [resolvePhase] at h
    rcases hroot : txn.valueRoot
        ((((cmIndex.lookup id).getD {}).single).map fun p =>
          (resolveDoubles (indexMap ++ [(id, i)]) index
            (((cmIndex.lookup id).getD {}).double)
            { arena := arena }).arena.getD p default) with _ | root
    · rw [hroot] at h
      cases h
    · rw [hroot] at h
      set cx := (cmIndex.lookup id).getD {} with hcx
      set rs := resolveDoubles (indexMap ++ [(id, i)]) index cx.double
        { arena := arena } with hrs
      obtain ⟨_, _, rdframe, rdlen, rdcur⟩ := resolveDoubles_props
        (indexMap ++ [(id, i)]) index cx.double { arena := arena }
      rw [← hrs] at rdframe rdlen rdcur
      obtain ⟨ihframe, ihlen, ihcur⟩ := ih (i + 1) (indexMap ++ [(id, i)]) _ _ h
      have hcxgroups : ∀ q, (∀ e ∈ cmIndex, q ∉ doubleRefs e.2.double) →
          ∀ g ∈ cx.double, q ∉ g.2 := by
        intro q hq g hg hqg
        rcases hl : cmIndex.lookup id with _ | cx0
        · rw [hcx, hl] at hg
          cases hg
        · have : g ∈ cx0.double := by
            rw [hcx, hl] at hg
            exact hg
          exact hq (id, cx0) (lookup_mem hl)
            (mem_doubleRefs.mpr ⟨g, this, hqg⟩)
      refine ⟨?_, by rw [ihlen, rdlen], ?_⟩
      · intro q hq
        rw [ihframe q hq, rdframe q (hcxgroups q hq)]
      · intro q hsome
        obtain ⟨p1, p2⟩ := rdcur q hsome
        obtain ⟨q1, q2⟩ := ihcur q p1
        exact ⟨q1, by rw [q2, p2]⟩

/-! ## C10 -/

/-- C10: constraint (self-join) references contribute nothing to a
codex's `Count`, `Norm` or `Length` — after the probe phase those
aggregates are folds over exactly the `Single` and `Double` groups — and
constraint references are never probed: their arena entries come out of
the whole `getAssignmentTree` exactly as they went in. -/
theorem C10_constraint_refs_excluded (cm : CodexMap) (txn : Txn)
    (arena : List Reference) {index' : List (String × Codex)}
    {arena1 : List Reference}
    {r : List String × List (String × Assignment) × List Reference}
    (hp : probePhase txn cm.index arena = .ok (index', arena1))
    (hg : cm.getAssignmentTree txn arena = .ok r)
    (hdisj : ∀ e ∈ cm.index, ∀ p ∈ e.2.constraint,
      ∀ e' ∈ cm.index, p ∉ e'.2.single ∧ p ∉ doubleRefs e'.2.double) :
    List.Forall₂ (fun e e' => e.1 = e'.1 ∧
      e'.2.count = sumCounts txn arena e.2.single +
        sumCounts txn arena (doubleRefs e.2.double) ∧
      e'.2.norm = e.2.norm + sumNorm txn arena e.2.single +
        sumNorm txn arena (doubleRefs e.2.double) ∧
      e'.2.length = e.2.length + e.2.single.length +
        (doubleRefs e.2.double).length ∧
      e'.2.constraint = e.2.constraint ∧
      e'.2.single = e.2.single ∧
      e'.2.double = e.2.double) cm.index index' ∧
    ∀ e ∈ cm.index, ∀ p ∈ e.2.constraint, refAt r.2.2 p = refAt arena p := by
  obtain ⟨_, _, hrel, _, hframe, _⟩ := probePhase_ok txn cm.index arena hp
  constructor
  · refine hrel.imp fun a b hxy => ⟨hxy.1, ?_⟩
    exact hxy.2
  · intro e he p hpc
    rw [CodexMap.getAssignmentTree] at hg
    rw [hp] at hg
    dsimp only at hg
    rcases hres : resolvePhase txn index'
        (cm.slice.insertionSort (codexLess index')) 0 [] [] arena1 with
      err | ⟨asgn, arena2⟩
    · rw [hres] at hg
      cases hg
    · rw [hres] at hg
      cases hg
      dsimp only
      obtain ⟨rframe, _, _⟩ := resolvePhase_arena txn index'
        (cm.slice.insertionSort (codexLess index')) 0 [] [] arena1 hres
      have hnotdouble : ∀ e' ∈ index', p ∉ doubleRefs e'.2.double := by
        intro e' he'
        obtain ⟨e0, he0, hr0⟩ := forall₂_mem_right hrel e' he'
        have hdd : e'.2.double = e0.2.double := hr0.2.2.2.2.2.2
        rw [hdd]
        exact (hdisj e he p hpc e0 he0).2
      rw [rframe p hnotdouble]
      exact hframe p fun e' he' =>
        ⟨(hdisj e he p hpc e' he').1, (hdisj e he p hpc e' he').2⟩

/-- Witness: the aggregate folds and untouched-constraint property on the
spec §8 scenario (the disjointness hypothesis holds because
classification hands out distinct arena positions). -/
theorem C10_witness :
    List.Forall₂ (fun e e' => e.1 = e'.1 ∧
      e'.2.count = sumCounts exTxnOne exClass.2.1 e.2.single +
        sumCounts exTxnOne exClass.2.1 (doubleRefs e.2.double) ∧
      e'.2.norm = e.2.norm + sumNorm exTxnOne exClass.2.1 e.2.single +
        sumNorm exTxnOne exClass.2.1 (doubleRefs e.2.double) ∧
      e'.2.length = e.2.length + e.2.single.length +
        (doubleRefs e.2.double).length ∧
      e'.2.constraint = e.2.constraint ∧
      e'.2.single = e.2.single ∧
      e'.2.double = e.2.double) exClass.2.2.index exProbe.1 ∧
    ∀ e ∈ exClass.2.2.index, ∀ p ∈ e.2.constraint,
      refAt exTree.2.2 p = refAt exClass.2.1 p :=
  C10_constraint_refs_excluded exClass.2.2 exTxnOne exClass.2.1 (by rfl)
    (by rfl) (by decide)

/-! ## C9 -/

/-- Every assignment added by the per-variable resolution loop carries a
non-`none` value root: the `ValueRoot == nil` check aborts before the
assignment map is extended otherwise. -/
theorem resolvePhase_valueRoot (txn : Txn) (cmIndex : List (String × Codex)) :
    ∀ (ids : List String) (i : Nat) (indexMap : List (String × Nat))
      (index : List (String × Assignment)) (arena : List Reference)
      {asgn : List (String × Assignment)} {arena' : List Reference},
      resolvePhase txn cmIndex ids i indexMap index arena = .ok (asgn, arena') →
      (∀ e ∈ index, e.2.valueRoot ≠ none) →
      ∀ e ∈ asgn, e.2.valueRoot ≠ none := by
  intro ids
  induction ids with
  | nil =>
    intro i indexMap index arena asgn arena' h hinv
    rw [resolvePhase] at h
    cases h
    exact hinv
  | cons id ids ih =>
    intro i indexMap index arena asgn arena' h hinv
    rw [resolvePhase] at h
    rcases hroot : txn.valueRoot
        ((((cmIndex.lookup id).getD {}).single).map fun p =>
          (resolveDoubles (indexMap ++ [(id, i)]) index
            (((cmIndex.lookup id).getD {}).double)
            { arena := arena }).arena.getD p default) with _ | root
    · rw [hroot] at h
      cases h
    · rw [hroot] at h
      refine ih (i + 1) _ _ _ h ?_
      intro e he
      rcases List.mem_append.mp he with he | he
      · exact hinv e he
      · rcases List.mem_singleton.mp he with rfl
        simp

/-- C9: in the assignment map of a successful `getAssignmentTree`, every
variable's value root is non-`none` — a `nil` root after `setValueRoot`
aborts the whole compilation before it can be returned. -/
theorem C9_valueRoot_nonempty (cm : CodexMap) (txn : Txn)
    (arena : List Reference)
    {r : List String × List (String × Assignment) × List Reference}
    (h : cm.getAssignmentTree txn arena = .ok r) :
    ∀ e ∈ r.2.1, e.2.valueRoot ≠ none := by
  rw [CodexMap.getAssignmentTree] at h
  rcases hp : probePhase txn cm.index arena with e' | ⟨index', arena'⟩
  · rw [hp] at h
    cases h
  · rw [hp] at h
    dsimp only at h
    rcases hr : resolvePhase txn index'
        (cm.slice.insertionSort (codexLess index')) 0 [] [] arena' with
      err | ⟨asgn, arena''⟩
    · rw [hr] at h
      cases h
    · rw [hr] at h
      cases h
      exact resolvePhase_valueRoot txn index' _ 0 [] [] arena' hr
        (fun e he => absurd he (List.not_mem_nil e))

/-- A snapshot with every count present and equal to 2. -/
def exTxnTwo : Txn :=
  { counts := fun _ => some 2, valueRoot := fun _ => some ["v"] }

/-- The (successful) result of compiling `exZeroCm` against
`exTxnTwo`. -/
def exOkResult : List String × List (String × Assignment) × List Reference :=
  (exZeroCm.getAssignmentTree exTxnTwo exZeroArena).toOption.getD ([], [], [])

/-- Witness: a concrete successful compilation in which the returned
assignment has a populated value root. -/
theorem C9_witness : (exOkResult.2.1.getD 0 ("", {})).2.valueRoot ≠ none :=
  @C9_valueRoot_nonempty exZeroCm exTxnTwo exZeroArena exOkResult (by decide)
    (exOkResult.2.1.getD 0 ("", {})) (by decide)

/-! ## C6 -/

/-- A statement with exactly one variable among its three positions
(classified into a `single` reference). -/
def Quad.oneVar (q : Quad) : Bool :=
  (q.subject.isBlank && !q.predicate.isBlank && !q.object.isBlank) ||
  (!q.subject.isBlank && q.predicate.isBlank && !q.object.isBlank) ||
  (!q.subject.isBlank && !q.predicate.isBlank && q.object.isBlank)

/-- Creation shapes: the reference a one-variable statement appends
carries a `none` cursor, while every other classified reference
(constant, constraint, double) goes through `makeReference`
(codex.go:221) and is created already holding an empty cursor. -/
theorem processQuad_cursor_shape {graph : String} {index : Nat} {q : Quad}
    {st st' : ClassState} (h : processQuad graph index q st = .ok st') :
    ∀ r ∈ st'.arena.drop st.arena.length,
      r.cursor = if q.oneVar then none else some {} := by
  rw [processQuad] at h
  split at h
  · rename_i h1
    simp only [Bool.and_eq_true, Bool.not_eq_true'] at h1
    have hone : q.oneVar = false := by
      simp [Quad.oneVar, h1.1.1, h1.1.2, h1.2]
    cases h
    intro r hr
    rw [List.drop_left] at hr
    rw [hone, if_neg Bool.false_ne_true]
    rcases List.mem_cons.mp hr with rfl | hr
    · rfl
    · cases hr
  · split at h
    · rename_i h2
      have hone : q.oneVar = true := h2
      cases h
      intro r hr
      rw [List.drop_left] at hr
      rw [hone, if_pos rfl]
      rcases List.mem_cons.mp hr with rfl | hr
      · split
        · rfl
        · split <;> rfl
      · cases hr
    · split at h
      · rename_i h3
        simp only [Bool.and_eq_true, Bool.not_eq_true'] at h3
        have hone : q.oneVar = false := by
          simp [Quad.oneVar, h3.1.1, h3.1.2, h3.2]
        split at h
        · cases h
          intro r hr
          rw [List.drop_left] at hr
          rw [hone, if_neg Bool.false_ne_true]
          rcases List.mem_cons.mp hr with rfl | hr
          · rfl
          · cases hr
        · cases h
          intro r hr
          rw [List.drop_left] at hr
          rw [hone, if_neg Bool.false_ne_true]
          rcases List.mem_cons.mp hr with rfl | hr
          · rfl
          · rcases List.mem_cons.mp hr with rfl | hr
            · rfl
            · cases hr
      · split at h
        · rename_i h4
          simp only [Bool.and_eq_true, Bool.not_eq_true'] at h4
          have hone : q.oneVar = false := by
            simp [Quad.oneVar, h4.1.1, h4.1.2, h4.2]
          split at h
          · cases h
            intro r hr
            rw [List.drop_left] at hr
            rw [hone, if_neg Bool.false_ne_true]
            rcases List.mem_cons.mp hr with rfl | hr
            · rfl
            · cases hr
          · cases h
            intro r hr
            rw [List.drop_left] at hr
            rw [hone, if_neg Bool.false_ne_true]
            rcases List.mem_cons.mp hr with rfl | hr
            · rfl
            · rcases List.mem_cons.mp hr with rfl | hr
              · rfl
              · cases hr
        · split at h
          · rename_i h5
            simp only [Bool.and_eq_true, Bool.not_eq_true'] at h5
            have hone : q.oneVar = false := by
              simp [Quad.oneVar, h5.1.1, h5.1.2, h5.2]
            split at h
            · cases h
              intro r hr
              rw [List.drop_left] at hr
              rw [hone, if_neg Bool.false_ne_true]
              rcases List.mem_cons.mp hr with rfl | hr
              · rfl
              · cases hr
            · cases h
              intro r hr
              rw [List.drop_left] at hr
              rw [hone, if_neg Bool.false_ne_true]
              rcases List.mem_cons.mp hr with rfl | hr
              · rfl
              · rcases List.mem_cons.mp hr with rfl | hr
                · rfl
                · cases hr
          · cases h

/-- C6 counterexample: the claim says every reference's cursor is absent
(nil) until the probe phase, but classifying one two-variable statement
already leaves both double references holding a (non-nil) empty
cursor. -/
theorem C6_counterexample_eager_cursor :
    (getInitalCodexMap [("g", [⟨.blank "a", .blank "b", .leaf "o"⟩])]).toOption.map
      (fun r => r.2.1.map Reference.cursor) = some [some {}, some {}] := by
  decide

/-- C6 (amended): the cursor lifecycle.  (1) Classification: a
one-variable statement's `single` reference is created with an absent
(`none`) cursor, while every other reference (constant, constraint,
double) is created already carrying an empty cursor.  (2) Probe phase:
every `single` and `double` reference's cursor is written there with
exactly the freshly probed count.  (3) Resolution: a present cursor is
never cleared afterwards and its count is never changed (only the
`ID`/`Index` bookkeeping fields are written). -/
theorem C6_cursor_lifecycle
    (graph : String) (index : Nat) (q : Quad) (st st' : ClassState)
    (hq : processQuad graph index q st = .ok st')
    (cm : CodexMap) (txn : Txn) (arena : List Reference)
    (index' : List (String × Codex)) (arena1 : List Reference)
    (hp : probePhase txn cm.index arena = .ok (index', arena1))
    (cmIndex : List (String × Codex)) (ids : List String) (i : Nat)
    (indexMap : List (String × Nat)) (aIndex : List (String × Assignment))
    (arenaR : List Reference) (asgn : List (String × Assignment))
    (arena' : List Reference)
    (hres : resolvePhase txn cmIndex ids i indexMap aIndex arenaR =
      .ok (asgn, arena')) :
    (∀ r ∈ st'.arena.drop st.arena.length,
      r.cursor = if q.oneVar then none else some {}) ∧
    (∀ e ∈ cm.index, ∀ p, (p ∈ e.2.single ∨ p ∈ doubleRefs e.2.double) →
      p < arena.length →
      (refAt arena1 p).cursor = some { count := countAt txn arena p }) ∧
    (∀ p, (refAt arenaR p).cursor.isSome = true →
      (refAt arena' p).cursor.isSome = true ∧
      (refAt arena' p).cursor.map Cursor.count =
        (refAt arenaR p).cursor.map Cursor.count) := by
  refine ⟨processQuad_cursor_shape hq, ?_, ?_⟩
  · intro e he p hmem hplt
    obtain ⟨_, _, _, _, _, hcur⟩ := probePhase_ok txn cm.index arena hp
    rw [hcur e he p hmem hplt]
  · exact (resolvePhase_arena txn cmIndex ids i indexMap aIndex arenaR
      hres).2.2

/-- The classification of one two-variable statement from the spec §8
scenario, starting from the empty state. -/
def exC6St : ClassState :=
  (processQuad "g" 0 ⟨.blank "x", .leaf "friend", .blank "y"⟩ {}).toOption.getD {}

/-- Witness: the amended cursor lifecycle on concrete inputs — the
two-variable statement's classification, then the spec §8 scenario's
probe and resolution stages against the all-ones snapshot. -/
theorem C6_witness :
    (∀ r ∈ exC6St.arena.drop (({} : ClassState).arena).length,
      r.cursor = if Quad.oneVar ⟨.blank "x", .leaf "friend", .blank "y"⟩
        then none else some {}) ∧
    (∀ e ∈ exClass.2.2.index, ∀ p,
      (p ∈ e.2.single ∨ p ∈ doubleRefs e.2.double) →
      p < exClass.2.1.length →
      (refAt exProbe.2 p).cursor =
        some { count := countAt exTxnOne exClass.2.1 p }) ∧
    (∀ p, (refAt exProbe.2 p).cursor.isSome = true →
      (refAt exTree.2.2 p).cursor.isSome = true ∧
      (refAt exTree.2.2 p).cursor.map Cursor.count =
        (refAt exProbe.2 p).cursor.map Cursor.count) :=
  C6_cursor_lifecycle "g" 0 ⟨.blank "x", .leaf "friend", .blank "y"⟩ {} exC6St
    (by rfl) exClass.2.2 exTxnOne exClass.2.1 exProbe.1 exProbe.2 (by rfl)
    exProbe.1 (exClass.2.2.slice.insertionSort (codexLess exProbe.1)) 0 [] []
    exProbe.2 exTree.2.1 exTree.2.2 (by rfl)

end Styx
